import Mathlib

/-!
Shallow embedding of the x-repo tagging and gopls release logic.

The embedding follows the source:
 - `TagRepo`, `checkCycles` / `checkCycles1` (depth-first cycle search over a
   module map, with general recursion rendered by an explicit fuel parameter),
 - `BuildPlan` (the readiness-driven planning fixed-point loop; the workflow
   engine's task values are abstracted to the set of planned module paths),
 - `MaybeTag` and `nextMinor` (tag decision; the Gerrit client is modelled as
   an explicit tag store, and the external `semver` library is modelled from
   the spec's description of semantic versions),
 - the gopls release helpers `parseSemver`, `prereleaseVersion`,
   `currentGoplsPrerelease`, `nextPrerelease`, `isValidPrereleaseVersion` and
   `executeAndMonitorChange`.
-/

/-- `TagRepo` mirrors the source structure: Gerrit project name, module path,
dependency module paths, and decided version. -/
structure TagRepo where
  Name : String
  ModPath : String
  Deps : List String
  Version : String
deriving DecidableEq

/-- The Go zero value of `TagRepo`, produced by a map lookup on a missing key. -/
def zeroTagRepo : TagRepo := ⟨"", "", [], ""⟩

/-- `reposByModule[p]`: the Go map built with `reposByModule[repo.ModPath] = repo`
is keyed last-wins; a missing key yields the zero value. -/
def lookupRepo (repos : List TagRepo) (p : String) : TagRepo :=
  (repos.foldl (fun acc r => if r.ModPath = p then some r else acc) none).getD zeroTagRepo

/-- The entries of the Go map `reposByModule`: for each module path the last
repo assigned to it, here listed in order of last occurrence.  (Go iterates a
map in unspecified order; order-insensitivity is proved where claimed.) -/
def dedupLast : List TagRepo → List TagRepo
  | [] => []
  | r :: rest =>
    if rest.any (fun s => s.ModPath = r.ModPath) then dedupLast rest
    else r :: dedupLast rest

/-- The duplicate scan of `checkCycles1`: after pushing `p`, for every earlier
occurrence of `p` on the stack record the sub-stack from that occurrence
(including the new push), in order of increasing index. -/
def recordCycles : List String → String → List (List String)
  | [], _ => []
  | s :: rest, p =>
    (if s = p then [(s :: rest) ++ [p]] else []) ++ recordCycles rest p

/-- `checkCycles1` from the source: push the module on the path stack, report
the cycles closed by this push and stop, otherwise recurse into every
dependency (a missing dependency looks up to the zero `TagRepo`).  The `fuel`
parameter renders the general recursion; `checkCycles` supplies enough fuel
(proved as the termination claim). -/
def checkCycles1 (f : String → TagRepo) : Nat → TagRepo → List String → List (List String)
  | 0, _, _ => []
  | fuel+1, repo, stack =>
    let cycles := recordCycles stack repo.ModPath
    if cycles = [] then
      (repo.Deps.map (fun dep => checkCycles1 f fuel (f dep) (stack ++ [repo.ModPath]))).flatten
    else cycles

/-- Fuel sufficient for every depth-first walk: the stack only ever holds
distinct module paths drawn from the map keys plus the empty path. -/
def cyclesFuel (repos : List TagRepo) : Nat := repos.length + 2

/-- All cycles collected by starting a depth-first walk at every map entry. -/
def collectCyclesWith (fuel : Nat) (repos : List TagRepo) : List (List String) :=
  ((dedupLast repos).map (fun r => checkCycles1 (lookupRepo repos) fuel r [])).flatten

/-- The pre-filter cycle list of `checkCycles` (its `cycles` variable). -/
def collectCycles (repos : List TagRepo) : List (List String) :=
  collectCyclesWith (cyclesFuel repos) repos

/-- One step of the shortest-cycle filter of `checkCycles`: keep only cycles of
the minimum length seen so far, deduplicated by exact sequence equality. -/
def shortestStep (acc : List (List String)) (cycle : List String) : List (List String) :=
  match acc with
  | [] => [cycle]
  | c0 :: _ =>
    if cycle.length < c0.length then [cycle]
    else if c0.length = cycle.length then (if cycle ∈ acc then acc else acc ++ [cycle])
    else acc

/-- The shortest-cycle filter loop of `checkCycles`. -/
def shortestOf (cycles : List (List String)) : List (List String) :=
  cycles.foldl shortestStep []

/-- `checkCycles` from the source: collect cycles from every entry, then keep
the shortest ones deduplicated by exact equality. -/
def checkCycles (repos : List TagRepo) : List (List String) :=
  shortestOf (collectCycles repos)

/-- One full pass of `BuildPlan` over the repos: plan (append) every repo not
yet planned whose dependencies are all planned.  The planned set grows during
the pass, exactly as the Go map `updated` does. -/
def passPlan (repos : List TagRepo) (updated : List String) : List String :=
  repos.foldl (fun acc r =>
    if acc.contains r.ModPath then acc
    else if r.Deps.all (fun d => acc.contains d) then acc ++ [r.ModPath] else acc) updated

/-- The `BuildPlan` fixed-point loop: repeat passes until every repo is planned
(`len(updated) == len(repos)`); a pass with no progress aborts with the names
of the still-unplanned repos.  `fuel` bounds the passes; `BuildPlan` supplies
enough, since every non-final pass plans at least one module. -/
def buildPlanLoop : Nat → List TagRepo → List String → Except (List String) (List String)
  | 0, _, updated => Except.ok updated
  | fuel+1, repos, updated =>
    if updated.length = repos.length then Except.ok updated
    else
      let next := passPlan repos updated
      if next.length = updated.length then
        Except.error ((repos.filter (fun r => ! next.contains r.ModPath)).map (fun r => r.Name))
      else buildPlanLoop fuel repos next

/-- `BuildPlan` from the source, abstracted to the planning decision: returns
the planned module paths, or the fatal "failed to progress" error naming the
stuck repos. -/
def BuildPlan (repos : List TagRepo) : Except (List String) (List String) :=
  buildPlanLoop (repos.length + 1) repos []

/-- Acyclicity of the dependency graph of a module set, expressed by a
topological rank on module paths. -/
def Acyclic (repos : List TagRepo) : Prop :=
  ∃ rank : String → Nat, ∀ r ∈ repos, ∀ d ∈ r.Deps, rank d < rank r.ModPath

/-- Every declared dependency refers to a module present in the set. -/
def DepsClosed (repos : List TagRepo) : Prop :=
  ∀ r ∈ repos, ∀ d ∈ r.Deps, d ∈ repos.map TagRepo.ModPath

/-- A step of dependency edges via the module map: `b` is a declared
dependency of the module found at `a`. -/
def depEdge (f : String → TagRepo) (a b : String) : Prop :=
  b ∈ (f a).Deps

/-- A dependency path from `u` through the successive nodes of the list. -/
def IsDepPath (f : String → TagRepo) : String → List String → Prop
  | _, [] => True
  | u, x :: xs => depEdge f u x ∧ IsDepPath f x xs

/-! ## Version strings and digits -/

/-- The single-quote character (used by `executeAndMonitorChange`'s file-name
guard). -/
def squote : Char := Char.ofNat 39

/-- Numeric value of a decimal digit character. -/
def digitVal (c : Char) : Nat := c.toNat - 48

/-- Decimal value of a digit string (as scanned by `%d` / `Atoi`). -/
def digitsToNat (ds : List Char) : Nat := ds.foldl (fun acc c => 10 * acc + digitVal c) 0

/-- The decimal digit character of `n < 10`. -/
def digitChar (n : Nat) : Char := Char.ofNat (48 + n)

/-- Decimal rendering of a natural number (`fmt.Sprintf` with `%d` / `%v`),
with structural fuel (the first argument) so that it computes by reduction. -/
def natDigitsAux : Nat → Nat → List Char
  | 0, _ => []
  | fuel+1, n => if n < 10 then [digitChar n] else natDigitsAux fuel (n / 10) ++ [digitChar (n % 10)]

/-- Decimal digits of a natural number, most significant first. -/
def natDigits (n : Nat) : List Char := natDigitsAux (n + 1) n

/-- Decimal string of a natural number. -/
def natToString (n : Nat) : String := String.mk (natDigits n)

/-- Decimal string of an integer. -/
def intToString (i : Int) : String :=
  if i < 0 then String.mk ('-' :: natDigits i.natAbs) else natToString i.natAbs

/-- A canonical decimal-number literal: nonempty, all digits, no leading zero
except for the single digit 0. -/
def canonicalDigits (ds : List Char) : Bool :=
  !ds.isEmpty && ds.all Char.isDigit && (decide (ds.head? ≠ some '0') || decide (ds.length = 1))

/-- A parsed semantic version, as in the source (`semversion`): the numeric
triple and the pre-release token (empty when absent). -/
structure semversion where
  Major : Nat
  Minor : Nat
  Patch : Nat
  Pre : String
deriving DecidableEq

/-- Scan one canonical decimal number from the front of a character list. -/
def parseNumL (cs : List Char) : Option (Nat × List Char) :=
  let ds := cs.takeWhile Char.isDigit
  if canonicalDigits ds then some (digitsToNat ds, cs.dropWhile Char.isDigit) else none

/-- The tail of a canonical version after the three numeric components: the
end of the input, or a `-` followed by a nonempty pre-release token. -/
def parseVerRest (ma mi pa : Nat) : List Char → Option semversion
  | [] => some ⟨ma, mi, pa, ""⟩
  | c :: pre =>
    if c = '-' then (if pre.isEmpty then none else some ⟨ma, mi, pa, String.mk pre⟩)
    else none

/-- The patch component and the rest. -/
def parseVerPatch (ma mi : Nat) (cs : List Char) : Option semversion :=
  match parseNumL cs with
  | some (pa, r3) => parseVerRest ma mi pa r3
  | none => none

/-- The dot before the patch component. -/
def parseVerDot2 (ma mi : Nat) : List Char → Option semversion
  | c :: rest => if c = '.' then parseVerPatch ma mi rest else none
  | [] => none

/-- The minor component and the rest. -/
def parseVerMinor (ma : Nat) (cs : List Char) : Option semversion :=
  match parseNumL cs with
  | some (mi, r2) => parseVerDot2 ma mi r2
  | none => none

/-- The dot before the minor component. -/
def parseVerDot1 (ma : Nat) : List Char → Option semversion
  | c :: rest => if c = '.' then parseVerMinor ma rest else none
  | [] => none

/-- The major component and the rest. -/
def parseVerMajor (cs : List Char) : Option semversion :=
  match parseNumL cs with
  | some (ma, r1) => parseVerDot1 ma r1
  | none => none

/-- Modelled from the spec: the external semantic-version utilities
(`semver.IsValid` / `semver.Prerelease` / `semver.Compare` of `x/mod/semver`,
which are not part of this repository) work on versions of the form
`vMAJOR.MINOR.PATCH` with an optional nonempty `-` pre-release token; the
numeric components are canonical decimal numbers.  `parseVerL` parses such a
version. -/
def parseVerL : List Char → Option semversion
  | c :: rest => if c = 'v' then parseVerMajor rest else none
  | [] => none

/-- Modelled from the spec: `semver.IsValid`. -/
def semverIsValid (v : String) : Bool := (parseVerL v.data).isSome

/-- Modelled from the spec: `semver.Prerelease(v) == ""` — the version has no
pre-release token. -/
def semverNoPre (v : String) : Bool :=
  match parseVerL v.data with
  | some sv => sv.Pre = ""
  | none => true

/-- Modelled from the spec: the strict semantic-version order
(`semver.Compare a b < 0`).  The numeric triple is compared first; a version
without pre-release token sorts after any pre-release of the same triple.
(Only versions without pre-release token are ever compared by the code under
verification.) -/
def verLt (a b : semversion) : Bool :=
  if a.Major ≠ b.Major then decide (a.Major < b.Major)
  else if a.Minor ≠ b.Minor then decide (a.Minor < b.Minor)
  else if a.Patch ≠ b.Patch then decide (a.Patch < b.Patch)
  else if a.Pre = b.Pre then false
  else if a.Pre = "" then false
  else if b.Pre = "" then true
  else false

/-- One step of the `highestRelease` selection of `MaybeTag`: keep `tag` when
it is a valid non-pre-release version and either no candidate was seen yet or
the candidate compares lower. -/
def betterTag (highest tag : String) : String :=
  match parseVerL tag.data with
  | none => highest
  | some sv =>
    if sv.Pre ≠ "" then highest
    else if highest = "" then tag
    else
      match parseVerL highest.data with
      | none => tag
      | some hv => if verLt hv sv then tag else highest

/-- The `highestRelease` fold of `MaybeTag` over the listed tag names. -/
def highestRelease (tags : List String) : String := tags.foldl betterTag ""

/-- The Gerrit tag store of one project: tag names bound to revisions, in
creation order.  `ListTags` is the name list, `GetTag` the binding. -/
structure GerritState where
  tags : List (String × String)
deriving DecidableEq

/-- First-match lookup in an association list (tag and branch refs are
unique). -/
def lookupStr : List (String × String) → String → Option String
  | [], _ => none
  | (k, v) :: rest, key => if k = key then some v else lookupStr rest key

/-- The distinct errors surfaced by the modelled tasks; each constructor
stands for one of the distinct formatted error messages of the source. -/
inductive TaskErr where
  | noSemverTags : List String → TaskErr
  | tagReadFailed : String → TaskErr
  | nextVersionFailed : String → TaskErr
  | malformedVersion : String → TaskErr
  | tagExists : String → TaskErr
  | quoteInFile : String → TaskErr
  | notSemver : String → TaskErr
  | invalidSemver : String → TaskErr
  | noPrereleaseToken : String → TaskErr
  | preNoDot : TaskErr
  | preTooManyDots : Nat → TaskErr
  | preNotNumber : String → TaskErr
  | preNotPositive : Int → TaskErr
  | alreadyReleased : String → TaskErr
  | newerPreAvailable : Int → TaskErr
  | preNotYetAvailable : Int → TaskErr
  | branchHeadMissing : String → TaskErr
  | tagInfoMissing : String → TaskErr
  | tagNotAtBranchHead : String → String → TaskErr
deriving DecidableEq

/-- `Gerrit.Tag`: create a tag at a commit.  Tags are append-only immutable
bindings; creating an existing tag is an error. -/
def gerritTag (st : GerritState) (name commit : String) : Except TaskErr GerritState :=
  if (st.tags.map Prod.fst).contains name then Except.error (TaskErr.tagExists name)
  else Except.ok ⟨st.tags ++ [(name, commit)]⟩

/-- The `\.(\d+)\..*` part of the `nextMinor` regular expression: the minor
digits, a dot, and arbitrary trailing input; produces the bumped version. -/
def nextMinorTail (d1 rest2 : List Char) : Option (List Char) :=
  if (rest2.takeWhile Char.isDigit).isEmpty then none
  else
    match rest2.dropWhile Char.isDigit with
    | c :: _ =>
      if c = '.' then
        some ('v' :: d1 ++ '.' :: natDigits (digitsToNat (rest2.takeWhile Char.isDigit) + 1)
          ++ ['.', '0'])
      else none
    | [] => none

/-- The first dot of the `nextMinor` regular expression. -/
def nextMinorDot (d1 : List Char) : List Char → Option (List Char)
  | c :: rest2 => if c = '.' then nextMinorTail d1 rest2 else none
  | [] => none

/-- `nextMinor` from the source: match `^v(\d+)\.(\d+)\..*$`, keep the major
digits verbatim, increment the minor, zero the patch. -/
def nextMinorL : List Char → Option (List Char)
  | c :: rest =>
    if c = 'v' then
      if (rest.takeWhile Char.isDigit).isEmpty then none
      else nextMinorDot (rest.takeWhile Char.isDigit) (rest.dropWhile Char.isDigit)
    else none
  | [] => none

/-- `nextMinor` on strings, with the "malformatted version" error. -/
def nextMinor (version : String) : Except TaskErr String :=
  match nextMinorL version.data with
  | some out => Except.ok (String.mk out)
  | none => Except.error (TaskErr.malformedVersion version)

/-- `MaybeTag` from the source: select the highest valid non-pre-release tag
(fatal if none), read its commit; if it is the target commit return the repo
with that version and change nothing, otherwise compute `nextMinor` and create
that tag at the target commit. -/
def MaybeTag (st : GerritState) (repo : TagRepo) (commit : String) :
    Except TaskErr (TagRepo × GerritState) :=
  if highestRelease (st.tags.map Prod.fst) = "" then
    Except.error (TaskErr.noSemverTags (st.tags.map Prod.fst))
  else
    match lookupStr st.tags (highestRelease (st.tags.map Prod.fst)) with
    | none => Except.error (TaskErr.tagReadFailed (highestRelease (st.tags.map Prod.fst)))
    | some rev =>
      if rev = commit then
        Except.ok ({ repo with Version := highestRelease (st.tags.map Prod.fst) }, st)
      else
        match nextMinor (highestRelease (st.tags.map Prod.fst)) with
        | Except.error _ =>
          Except.error (TaskErr.nextVersionFailed (highestRelease (st.tags.map Prod.fst)))
        | Except.ok v =>
          match gerritTag st v commit with
          | Except.error e => Except.error e
          | Except.ok st2 => Except.ok ({ repo with Version := v }, st2)

/-! ## Gopls release helpers -/

/-- `%d` of `fmt.Sscanf`: skip leading whitespace, accept an optional plus
sign, then scan a nonempty digit run (the scanned value; the input reaching
this scanner contains no minus sign, `strings.Cut` on `-` ran first). -/
def scanInt (cs : List Char) : Option (Nat × List Char) :=
  let cs1 := cs.dropWhile Char.isWhitespace
  let cs2 := match cs1 with
    | '+' :: rest => rest
    | _ => cs1
  let ds := cs2.takeWhile Char.isDigit
  if ds.isEmpty then none else some (digitsToNat ds, cs2.dropWhile Char.isDigit)

/-- `parseSemver` from the source: cut the input at the first `-` (the rest is
the `Pre` token), then scan `v%d.%d.%d` off the front, ignoring trailing
input, as `fmt.Sscanf` does. -/
def parseSemver (v : String) : Option semversion :=
  let base := v.data.takeWhile (fun c => c ≠ '-')
  let pre :=
    match v.data.dropWhile (fun c => c ≠ '-') with
    | _ :: t => String.mk t
    | [] => ""
  match base with
  | 'v' :: cs =>
    match scanInt cs with
    | none => none
    | some (ma, r1) =>
      match r1 with
      | '.' :: cs2 =>
        match scanInt cs2 with
        | none => none
        | some (mi, r2) =>
          match r2 with
          | '.' :: cs3 =>
            match scanInt cs3 with
            | none => none
            | some (pa, _) => some ⟨ma, mi, pa, pre⟩
          | _ => none
      | _ => none
  | _ => none

/-- `strconv.Atoi`: an optional sign followed by digits, nothing else. -/
def atoiInt (s : List Char) : Option Int :=
  match s with
  | [] => none
  | '+' :: ds =>
    if ds.isEmpty || !ds.all Char.isDigit then none else some (digitsToNat ds)
  | '-' :: ds =>
    if ds.isEmpty || !ds.all Char.isDigit then none else some (-(digitsToNat ds : Int))
  | ds =>
    if ds.all Char.isDigit then some (digitsToNat ds) else none

/-- `strings.Split` on the separator `"."` (over characters). -/
def splitOnDot : List Char → List (List Char)
  | [] => [[]]
  | c :: rest =>
    match splitOnDot rest with
    | h :: t => if c = '.' then [] :: h :: t else (c :: h) :: t
    | [] => if c = '.' then [[], []] else [[c]]

/-- `prereleaseVersion` from the source: split the pre-release token on `.`,
require exactly two parts, parse the second as a positive integer; each
failure is a distinct error. -/
def prereleaseVersion (s : semversion) : Except TaskErr Int :=
  let parts := splitOnDot s.Pre.data
  if parts.length = 1 then Except.error TaskErr.preNoDot
  else if 2 < parts.length then Except.error (TaskErr.preTooManyDots (parts.length - 1))
  else
    match atoiInt (parts.getD 1 []) with
    | none => Except.error (TaskErr.preNotNumber (String.mk (parts.getD 1 [])))
    | some pre =>
      if pre ≤ 0 then Except.error (TaskErr.preNotPositive pre) else Except.ok pre

/-- The per-tag step of `currentGoplsPrerelease`: the pre-release ordinal a
tag contributes for the triple of `semv`, when it is a `gopls/` tag of that
exact triple with a parsable positive pre-release ordinal. -/
def tagPreOrdinal (semv : semversion) (tag : String) : Option Int :=
  match tag.data with
  | 'g' :: 'o' :: 'p' :: 'l' :: 's' :: '/' :: rest =>
    match parseSemver (String.mk rest) with
    | none => none
    | some cur =>
      if cur.Major = semv.Major ∧ cur.Minor = semv.Minor ∧ cur.Patch = semv.Patch then
        match prereleaseVersion cur with
        | Except.ok pre => some pre
        | Except.error _ => none
      else none
  | _ => none

/-- `currentGoplsPrerelease` from the source: the maximum contributed
pre-release ordinal over the listed tags, starting from 0. -/
def currentGoplsPrerelease (tags : List String) (semv : semversion) : Int :=
  tags.foldl (fun mx tag =>
    match tagPreOrdinal semv tag with
    | some pre => if mx < pre then pre else mx
    | none => mx) 0

/-- `nextPrerelease` from the source: `pre.(current+1)`. -/
def nextPrerelease (tags : List String) (semv : semversion) : String :=
  "pre." ++ intToString (currentGoplsPrerelease tags semv + 1)

/-- `goplsReleaseBranchName` from the source. -/
def goplsReleaseBranchName (semv : semversion) : String :=
  "gopls-release-branch." ++ natToString semv.Major ++ "." ++ natToString semv.Minor

/-- The final release tag name `gopls/vX.Y.Z` of a triple. -/
def goplsReleaseTagOf (semv : semversion) : String :=
  "gopls/v" ++ natToString semv.Major ++ "." ++ natToString semv.Minor
    ++ "." ++ natToString semv.Patch

/-- The x/tools repo state consulted by `isValidPrereleaseVersion`: the tag
store and the branch heads. -/
structure ToolsState where
  tags : List (String × String)
  branchHeads : List (String × String)
deriving DecidableEq

/-- `isValidPrereleaseVersion` from the source: the input must be a valid
semver with a parsable positive pre-release ordinal, the final release tag
must not exist, the ordinal must equal the current (latest) pre-release
ordinal — a larger and a smaller ordinal are rejected with distinct errors —
and the pre-release tag must point at the release branch head. -/
def isValidPrereleaseVersion (st : ToolsState) (version : String) : Except TaskErr semversion :=
  if !semverIsValid version then Except.error (TaskErr.notSemver version)
  else
    match parseSemver version with
    | none => Except.error (TaskErr.invalidSemver version)
    | some semv =>
      if semv.Pre = "" then Except.error (TaskErr.noPrereleaseToken version)
      else
        match prereleaseVersion semv with
        | Except.error e => Except.error e
        | Except.ok pre =>
          if (st.tags.map Prod.fst).contains (goplsReleaseTagOf semv) then
            Except.error (TaskErr.alreadyReleased (goplsReleaseTagOf semv))
          else
            if pre < currentGoplsPrerelease (st.tags.map Prod.fst) semv then
              Except.error
                (TaskErr.newerPreAvailable (currentGoplsPrerelease (st.tags.map Prod.fst) semv))
            else if currentGoplsPrerelease (st.tags.map Prod.fst) semv < pre then
              Except.error
                (TaskErr.preNotYetAvailable (currentGoplsPrerelease (st.tags.map Prod.fst) semv))
            else
              match lookupStr st.branchHeads (goplsReleaseBranchName semv) with
              | none => Except.error (TaskErr.branchHeadMissing (goplsReleaseBranchName semv))
              | some head =>
                match lookupStr st.tags ("gopls/" ++ version) with
                | none => Except.error (TaskErr.tagInfoMissing ("gopls/" ++ version))
                | some revision =>
                  if revision ≠ head then Except.error (TaskErr.tagNotAtBranchHead head revision)
                  else Except.ok semv

/-- The changed-file map of `executeAndMonitorChange`: a watched file is
changed when its content after the script differs from its `.before` copy;
changed files map to their after-content. -/
def changedOf (watchFiles : List String) (outputs : String → String) : List (String × String) :=
  watchFiles.foldl (fun acc file =>
    if outputs (file ++ ".before") ≠ outputs file then acc ++ [(file, outputs file)] else acc) []

/-- `executeAndMonitorChange` from the source.  Modelled from the spec: the
script/build collaborator (`CloudBuild.RunScript` and `buildToOutputs`, not
part of this repository's sources here) is abstracted to the retrieved output
file contents `outputs`; `scriptExitOk` stands for the exit status of the
provided script, which the change computation never consults.  A watched file
name containing a single quote aborts before anything runs. -/
def executeAndMonitorChange (watchFiles : List String) (_scriptExitOk : Bool)
    (outputs : String → String) : Except TaskErr (List (String × String)) :=
  match watchFiles.find? (fun file => file.data.contains squote) with
  | some file => Except.error (TaskErr.quoteInFile file)
  | none => Except.ok (changedOf watchFiles outputs)

/-- Decidable equality for results, so that concrete runs evaluate. -/
instance exceptDecEq {ε α : Type} [DecidableEq ε] [DecidableEq α] :
    DecidableEq (Except ε α) := fun x y =>
  match x, y with
  | Except.ok a, Except.ok b =>
    if h : a = b then isTrue (by rw [h]) else isFalse (fun hc => h (by injection hc))
  | Except.error a, Except.error b =>
    if h : a = b then isTrue (by rw [h]) else isFalse (fun hc => h (by injection hc))
  | Except.ok _, Except.error _ => isFalse (fun hc => Except.noConfusion hc)
  | Except.error _, Except.ok _ => isFalse (fun hc => Except.noConfusion hc)

/-- The per-tag fold step of `currentGoplsPrerelease`, named for the lemmas. -/
def cgpStep (semv : semversion) (mx : Int) (tag : String) : Int :=
  match tagPreOrdinal semv tag with
  | some pre => if mx < pre then pre else mx
  | none => mx

/-- Invariant of the `shortestOf` fold: `acc` holds exactly the distinct
minimum-length elements of the processed prefix `P`. -/
def ShortInv (P acc : List (List String)) : Prop :=
  (acc = [] → P = []) ∧
  acc.Nodup ∧
  (∀ c ∈ acc, c ∈ P) ∧
  (∀ c ∈ acc, ∀ d ∈ P, c.length ≤ d.length) ∧
  (∀ c ∈ P, (∀ d ∈ P, c.length ≤ d.length) → c ∈ acc) ∧
  (∀ c ∈ acc, ∀ c2 ∈ acc, c.length = c2.length)

/-- Invariant of the `highestRelease` fold: either no processed tag was a
valid non-pre-release version and the accumulator is still empty, or the
accumulator is a processed valid non-pre-release tag at least as high as
every processed valid non-pre-release tag. -/
def HighestInv (processed : List String) (acc : String) : Prop :=
  (acc = "" ∧ ∀ t ∈ processed, ∀ tv, parseVerL t.data = some tv → tv.Pre ≠ "") ∨
  (acc ∈ processed ∧ ∃ hv, parseVerL acc.data = some hv ∧ hv.Pre = "" ∧
    ∀ t ∈ processed, ∀ tv, parseVerL t.data = some tv → tv.Pre = "" → verLt hv tv = false)

/-! ## Lemmas and claim theorems -/

theorem shortInv_nil : ShortInv [] [] := by
  refine ⟨fun _ => rfl, List.nodup_nil, ?_, ?_, ?_, ?_⟩ <;> simp

theorem shortInv_step (P acc : List (List String)) (x : List String)
    (h : ShortInv P acc) : ShortInv (P ++ [x]) (shortestStep acc x) := by
  obtain ⟨hemp, hnd, hsub, hmin, hcomp, hunif⟩ := h
  match hacc : acc with
  | [] =>
    have hP : P = [] := hemp rfl
    subst hP
    refine ⟨by simp [shortestStep], by simp [shortestStep], ?_, ?_, ?_, ?_⟩ <;>
      simp [shortestStep]
  | c0 :: rest =>
    have hc0P : c0 ∈ P := hsub c0 (by simp)
    unfold shortestStep
    change ShortInv (P ++ [x]) (if x.length < c0.length then [x]
      else if c0.length = x.length then (if x ∈ c0 :: rest then c0 :: rest
        else (c0 :: rest) ++ [x]) else (c0 :: rest))
    rcases lt_trichotomy x.length c0.length with hlt | heq | hgt
    · rw [if_pos hlt]
      refine ⟨by simp, by simp, ?_, ?_, ?_, ?_⟩
      · intro c hc; simp at hc; subst hc; simp
      · intro c hc d hd
        simp at hc; subst hc
        rcases List.mem_append.mp hd with hd | hd
        · exact le_of_lt (lt_of_lt_of_le hlt (hmin c0 (by simp) d hd))
        · simp at hd; subst hd; exact le_rfl
      · intro c hc hcmin
        rcases List.mem_append.mp hc with hc | hc
        · exfalso
          have h1 : c.length ≤ x.length := hcmin x (by simp)
          have h2 : c ∈ c0 :: rest := hcomp c hc (fun d hd => le_trans h1
            (le_of_lt (lt_of_lt_of_le hlt (hmin c0 (by simp) d hd))))
          have h3 : c.length = c0.length := hunif c h2 c0 (by simp)
          omega
        · simp at hc; subst hc; simp
      · intro c hc c2 hc2; simp at hc hc2; subst hc; subst hc2; rfl
    · rw [if_neg (by omega), if_pos heq.symm]
      by_cases hx : x ∈ c0 :: rest
      · rw [if_pos hx]
        refine ⟨by simp, hnd, ?_, ?_, ?_, ?_⟩
        · intro c hc; exact List.mem_append_left _ (hsub c hc)
        · intro c hc d hd
          rcases List.mem_append.mp hd with hd | hd
          · exact hmin c hc d hd
          · simp at hd; subst hd
            have := hunif c hc c0 (by simp); omega
        · intro c hc hcmin
          rcases List.mem_append.mp hc with hc | hc
          · exact hcomp c hc (fun d hd => hcmin d (List.mem_append_left _ hd))
          · simp at hc; subst hc; exact hx
        · exact hunif
      · rw [if_neg hx]
        refine ⟨by simp, ?_, ?_, ?_, ?_, ?_⟩
        · exact List.Nodup.append hnd (by simp) (by
            intro a ha hb; simp at hb; subst hb; exact hx ha)
        · intro c hc
          rcases List.mem_append.mp hc with hc | hc
          · exact List.mem_append_left _ (hsub c hc)
          · simp at hc; subst hc; exact List.mem_append_right _ (by simp)
        · intro c hc d hd
          rcases List.mem_append.mp hc with hc | hc
          · rcases List.mem_append.mp hd with hd | hd
            · exact hmin c hc d hd
            · simp at hd; subst d
              have := hunif c hc c0 (by simp); omega
          · simp at hc; subst hc
            rcases List.mem_append.mp hd with hd | hd
            · have := hmin c0 (by simp) d hd; omega
            · simp at hd; subst hd; exact le_rfl
        · intro c hc hcmin
          rcases List.mem_append.mp hc with hc | hc
          · exact List.mem_append_left _
              (hcomp c hc (fun d hd => hcmin d (List.mem_append_left _ hd)))
          · simp at hc; subst hc; exact List.mem_append_right _ (by simp)
        · intro c hc c2 hc2
          rcases List.mem_append.mp hc with hc | hc <;>
            rcases List.mem_append.mp hc2 with hc2 | hc2
          · exact hunif c hc c2 hc2
          · simp at hc2; subst c2
            have := hunif c hc c0 (by simp); omega
          · simp at hc; subst c
            have := hunif c2 hc2 c0 (by simp); omega
          · simp at hc hc2; subst hc; subst hc2; rfl
    · rw [if_neg (by omega), if_neg (by omega)]
      refine ⟨fun h => absurd h (by simp), hnd, ?_, ?_, ?_, hunif⟩
      · intro c hc; exact List.mem_append_left _ (hsub c hc)
      · intro c hc d hd
        rcases List.mem_append.mp hd with hd | hd
        · exact hmin c hc d hd
        · simp at hd; subst hd
          have := hunif c hc c0 (by simp); omega
      · intro c hc hcmin
        rcases List.mem_append.mp hc with hc | hc
        · exact hcomp c hc (fun d hd => hcmin d (List.mem_append_left _ hd))
        · exfalso; simp at hc; subst hc
          have := hcmin c0 (List.mem_append_left _ hc0P); omega

theorem shortInv_foldl (L : List (List String)) :
    ∀ P acc, ShortInv P acc → ShortInv (P ++ L) (L.foldl shortestStep acc) := by
  induction L with
  | nil => intro P acc h; simpa using h
  | cons x L ih =>
    intro P acc h
    have h2 := ih (P ++ [x]) (shortestStep acc x) (shortInv_step P acc x h)
    simpa using h2

theorem shortInv_shortestOf (L : List (List String)) : ShortInv L (shortestOf L) := by
  have := shortInv_foldl L [] [] shortInv_nil
  simpa [shortestOf] using this

theorem mem_shortestOf_iff (L : List (List String)) (c : List String) :
    c ∈ shortestOf L ↔ c ∈ L ∧ ∀ d ∈ L, c.length ≤ d.length := by
  obtain ⟨_, _, hsub, hmin, hcomp, _⟩ := shortInv_shortestOf L
  exact ⟨fun h => ⟨hsub c h, hmin c h⟩, fun ⟨h1, h2⟩ => hcomp c h1 h2⟩

theorem shortestOf_ne_nil (L : List (List String)) (h : L ≠ []) : shortestOf L ≠ [] := by
  obtain ⟨hemp, _, _, _, _, _⟩ := shortInv_shortestOf L
  intro hc; exact h (hemp hc)

/-- C3: every cycle returned by checkCycles has the globally minimum length
among all cycles discovered by the depth-first walks, and the returned list
has no duplicates under exact sequence equality. -/
theorem c3_shortest_cycles (repos : List TagRepo) :
    (∀ c ∈ checkCycles repos, c ∈ collectCycles repos ∧
      ∀ d ∈ collectCycles repos, c.length ≤ d.length) ∧
    (checkCycles repos).Nodup := by
  obtain ⟨_, hnd, hsub, hmin, _, _⟩ := shortInv_shortestOf (collectCycles repos)
  exact ⟨fun c hc => ⟨hsub c hc, hmin c hc⟩, hnd⟩

theorem changedOf_eq_nil (watchFiles : List String) (outputs : String → String)
    (h : ∀ f ∈ watchFiles, outputs (f ++ ".before") = outputs f) :
    changedOf watchFiles outputs = [] := by
  have gen : ∀ l : List String, (∀ f ∈ l, outputs (f ++ ".before") = outputs f) →
      ∀ acc : List (String × String),
      l.foldl (fun acc file => if outputs (file ++ ".before") ≠ outputs file
        then acc ++ [(file, outputs file)] else acc) acc = acc := by
    intro l
    induction l with
    | nil => intro _ acc; rfl
    | cons x l ih =>
      intro hl acc
      have hx := hl x (by simp)
      simp only [List.foldl_cons, if_neg (not_not_intro hx)]
      exact ih (fun f hf => hl f (by simp [hf])) acc
  exact gen watchFiles h []

/-- C9: when every watched file is byte-identical before and after the script
run (and no file name trips the quote guard), executeAndMonitorChange reports
an empty change map, whatever the script's own exit status was. -/
theorem c9_identical_files_empty_change (watchFiles : List String) (scriptExitOk : Bool)
    (outputs : String → String)
    (hq : ∀ f ∈ watchFiles, f.data.contains squote = false)
    (hid : ∀ f ∈ watchFiles, outputs (f ++ ".before") = outputs f) :
    executeAndMonitorChange watchFiles scriptExitOk outputs = Except.ok [] := by
  unfold executeAndMonitorChange
  rw [List.find?_eq_none.mpr (fun x hx => by simpa using hq x hx),
    changedOf_eq_nil watchFiles outputs hid]

theorem c9_witness :
    (∀ f ∈ ["gopls/go.mod", "gopls/go.sum"], f.data.contains squote = false) ∧
    executeAndMonitorChange ["gopls/go.mod", "gopls/go.sum"] false
      (fun _ => "module golang.org/x/tools") = Except.ok [] :=
  ⟨by decide, c9_identical_files_empty_change _ false _ (by decide) (by intro f _; rfl)⟩

theorem currentGoplsPrerelease_eq_foldl (tags : List String) (semv : semversion) :
    currentGoplsPrerelease tags semv = tags.foldl (cgpStep semv) 0 := rfl

theorem cgpStep_ge (semv : semversion) (mx : Int) (tag : String) :
    mx ≤ cgpStep semv mx tag := by
  unfold cgpStep
  cases tagPreOrdinal semv tag with
  | none => exact le_rfl
  | some pre => dsimp only; split <;> omega

theorem foldl_cgp_mono (semv : semversion) (l : List String) :
    ∀ mx : Int, mx ≤ l.foldl (cgpStep semv) mx := by
  induction l with
  | nil => intro mx; exact le_rfl
  | cons x l ih =>
    intro mx
    exact le_trans (cgpStep_ge semv mx x) (ih (cgpStep semv mx x))

theorem le_foldl_cgp_of_mem (semv : semversion) (l : List String) :
    ∀ mx : Int, ∀ t ∈ l, ∀ k, tagPreOrdinal semv t = some k →
      k ≤ l.foldl (cgpStep semv) mx := by
  induction l with
  | nil => intro _ t ht; exact absurd ht (List.not_mem_nil t)
  | cons x l ih =>
    intro mx t ht k hk
    rcases List.mem_cons.mp ht with rfl | ht
    · have hstep : k ≤ cgpStep semv mx t := by
        unfold cgpStep; rw [hk]; dsimp only; split <;> omega
      exact le_trans hstep (foldl_cgp_mono semv l _)
    · exact ih (cgpStep semv mx x) t ht k hk

theorem foldl_cgp_attained (semv : semversion) (l : List String) :
    ∀ mx : Int, l.foldl (cgpStep semv) mx = mx ∨
      ∃ t ∈ l, tagPreOrdinal semv t = some (l.foldl (cgpStep semv) mx) := by
  induction l with
  | nil => intro mx; exact Or.inl rfl
  | cons x l ih =>
    intro mx
    rcases ih (cgpStep semv mx x) with h | h
    · rw [List.foldl_cons, h]
      unfold cgpStep
      cases hx : tagPreOrdinal semv x with
      | none => exact Or.inl rfl
      | some pre =>
        dsimp only
        split
        · exact Or.inr ⟨x, by simp, hx⟩
        · exact Or.inl rfl
    · obtain ⟨t, ht, hk⟩ := h
      exact Or.inr ⟨t, by simp [ht], hk⟩

theorem foldl_cgp_all_none (semv : semversion) (l : List String)
    (h : ∀ t ∈ l, tagPreOrdinal semv t = none) :
    ∀ mx : Int, l.foldl (cgpStep semv) mx = mx := by
  induction l with
  | nil => intro _; rfl
  | cons x l ih =>
    intro mx
    have hx : cgpStep semv mx x = mx := by unfold cgpStep; rw [h x (by simp)]
    rw [List.foldl_cons, hx]
    exact ih (fun t ht => h t (by simp [ht])) mx

theorem foldl_cgp_eq_max (semv : semversion) (l : List String) :
    ∀ mx : Int, l.foldl (cgpStep semv) mx =
      (l.filterMap (tagPreOrdinal semv)).foldl max mx := by
  induction l with
  | nil => intro _; rfl
  | cons x l ih =>
    intro mx
    rw [List.foldl_cons]
    cases hx : tagPreOrdinal semv x with
    | none =>
      have hstep : cgpStep semv mx x = mx := by unfold cgpStep; rw [hx]
      rw [hstep, List.filterMap_cons_none hx]
      exact ih mx
    | some pre =>
      have hstep : cgpStep semv mx x = max mx pre := by
        unfold cgpStep; rw [hx]; dsimp only
        rcases lt_or_ge mx pre with h | h
        · rw [if_pos h, max_eq_right (le_of_lt h)]
        · rw [if_neg (by omega), max_eq_left h]
      rw [hstep, List.filterMap_cons_some hx, List.foldl_cons]
      exact ih (max mx pre)

/-- C7: nextPrerelease returns pre.(m+1) where m is the maximum contributed
pre-release ordinal among the existing gopls tags of the exact triple (0, so
pre.1, when there is none); in particular tags gopls/v1.2.0-pre.1 and
gopls/v1.2.0-pre.3 yield pre.4; the result is independent of tag order. -/
theorem c7_next_prerelease (tags tags2 : List String) (semv : semversion)
    (hperm : tags2.Perm tags) :
    (∀ t ∈ tags, ∀ k, tagPreOrdinal semv t = some k →
      k ≤ currentGoplsPrerelease tags semv) ∧
    (currentGoplsPrerelease tags semv = 0 ∨
      ∃ t ∈ tags, tagPreOrdinal semv t = some (currentGoplsPrerelease tags semv)) ∧
    nextPrerelease tags semv = "pre." ++ intToString (currentGoplsPrerelease tags semv + 1) ∧
    ((∀ t ∈ tags, tagPreOrdinal semv t = none) → nextPrerelease tags semv = "pre.1") ∧
    nextPrerelease ["gopls/v1.2.0-pre.1", "gopls/v1.2.0-pre.3"] ⟨1, 2, 0, ""⟩ = "pre.4" ∧
    nextPrerelease tags2 semv = nextPrerelease tags semv := by
  refine ⟨?_, ?_, rfl, ?_, by decide, ?_⟩
  · intro t ht k hk
    rw [currentGoplsPrerelease_eq_foldl]
    exact le_foldl_cgp_of_mem semv tags 0 t ht k hk
  · rw [currentGoplsPrerelease_eq_foldl]
    exact foldl_cgp_attained semv tags 0
  · intro hnone
    unfold nextPrerelease
    rw [currentGoplsPrerelease_eq_foldl, foldl_cgp_all_none semv tags hnone 0]
    decide
  · unfold nextPrerelease
    rw [currentGoplsPrerelease_eq_foldl, currentGoplsPrerelease_eq_foldl,
      foldl_cgp_eq_max, foldl_cgp_eq_max]
    haveI : RightCommutative (max : Int → Int → Int) :=
      ⟨fun b a c => by rw [max_assoc, max_assoc, max_comm a c]⟩
    rw [List.Perm.foldl_eq (List.Perm.filterMap (tagPreOrdinal semv) hperm)]

theorem c7_witness :
    (["gopls/v1.2.0-pre.3", "gopls/v1.2.0-pre.1"] : List String).Perm
      ["gopls/v1.2.0-pre.1", "gopls/v1.2.0-pre.3"] ∧
    nextPrerelease ["gopls/v1.2.0-pre.3", "gopls/v1.2.0-pre.1"] ⟨1, 2, 0, ""⟩ =
      nextPrerelease ["gopls/v1.2.0-pre.1", "gopls/v1.2.0-pre.3"] ⟨1, 2, 0, ""⟩ :=
  ⟨by decide, (c7_next_prerelease _ _ ⟨1, 2, 0, ""⟩ (by decide)).2.2.2.2.2⟩

theorem buildPlanLoop_succ (fuel : Nat) (repos : List TagRepo) (updated : List String) :
    buildPlanLoop (fuel + 1) repos updated =
      if updated.length = repos.length then Except.ok updated
      else if (passPlan repos updated).length = updated.length then
        Except.error ((repos.filter (fun r => ! (passPlan repos updated).contains r.ModPath)).map
          (fun r => r.Name))
      else buildPlanLoop fuel repos (passPlan repos updated) := rfl

/-- C2: when a full pass over the not-yet-planned modules plans nothing while
unplanned modules remain, the BuildPlan loop stops at once — independently of
the remaining fuel — with the fatal error naming exactly the still-unplanned
repos; from the initial empty state this is BuildPlan's result, naming every
repo. -/
theorem c2_no_progress_fatal (repos : List TagRepo) (updated : List String) (fuel : Nat)
    (hnp : passPlan repos updated = updated)
    (hlen : updated.length ≠ repos.length)
    (hfuel : 1 ≤ fuel) :
    buildPlanLoop fuel repos updated =
      Except.error ((repos.filter (fun r => ! updated.contains r.ModPath)).map
        (fun r => r.Name)) ∧
    (updated = [] → BuildPlan repos =
      Except.error (repos.map (fun r => r.Name))) := by
  constructor
  · obtain ⟨k, rfl⟩ : ∃ k, fuel = k + 1 := ⟨fuel - 1, by omega⟩
    rw [buildPlanLoop_succ, if_neg hlen, hnp, if_pos rfl]
  · intro hupd
    subst hupd
    unfold BuildPlan
    rw [buildPlanLoop_succ, if_neg hlen, hnp, if_pos rfl]
    have hfil : (repos.filter (fun r => ! ([] : List String).contains r.ModPath)) = repos :=
      List.filter_eq_self.mpr (fun r _ => rfl)
    rw [hfil]

theorem c2_witness :
    passPlan [⟨"tools", "golang.org/x/tools", ["golang.org/x/mod"], ""⟩] [] = [] ∧
    BuildPlan [⟨"tools", "golang.org/x/tools", ["golang.org/x/mod"], ""⟩] =
      Except.error ["tools"] :=
  ⟨by decide,
    (c2_no_progress_fatal [⟨"tools", "golang.org/x/tools", ["golang.org/x/mod"], ""⟩] [] 1
      (by decide) (by decide) (by decide)).2 rfl⟩

theorem lookupFold_or (p : String) (l : List TagRepo) :
    ∀ acc : Option TagRepo,
      l.foldl (fun acc r => if r.ModPath = p then some r else acc) acc =
        (l.foldl (fun acc r => if r.ModPath = p then some r else acc) none).or acc := by
  induction l with
  | nil => intro acc; simp
  | cons x t ih =>
    intro acc
    rw [List.foldl_cons, List.foldl_cons]
    by_cases hx : x.ModPath = p
    · rw [if_pos hx, if_pos hx, ih (some x), Option.or_assoc, Option.or_some]
    · rw [if_neg hx, if_neg hx, ih acc]

theorem lookupFold_some (p : String) (l : List TagRepo) :
    ∀ r, l.foldl (fun acc r => if r.ModPath = p then some r else acc) none = some r →
      r ∈ l ∧ r.ModPath = p := by
  induction l with
  | nil => intro r h; exact absurd h (by simp)
  | cons x t ih =>
    intro r h
    rw [List.foldl_cons, lookupFold_or] at h
    cases hT : t.foldl (fun acc r => if r.ModPath = p then some r else acc) none with
    | some r2 =>
      rw [hT] at h
      simp at h
      subst h
      obtain ⟨hmem, hpath⟩ := ih r2 hT
      exact ⟨by simp [hmem], hpath⟩
    | none =>
      rw [hT] at h
      by_cases hx : x.ModPath = p
      · rw [if_pos hx] at h
        simp at h
        subst h
        exact ⟨by simp, hx⟩
      · rw [if_neg hx] at h
        simp at h

theorem lookupFold_isSome (p : String) (l : List TagRepo)
    (h : p ∈ l.map TagRepo.ModPath) :
    (l.foldl (fun acc r => if r.ModPath = p then some r else acc) none).isSome := by
  induction l with
  | nil => simp at h
  | cons x t ih =>
    rw [List.foldl_cons, lookupFold_or]
    cases hT : t.foldl (fun acc r => if r.ModPath = p then some r else acc) none with
    | some r2 => simp
    | none =>
      have hx : x.ModPath = p := by
        rcases List.mem_map.mp h with ⟨r, hr, hrp⟩
        rcases List.mem_cons.mp hr with rfl | hr
        · exact hrp
        · exact absurd (ih (List.mem_map.mpr ⟨r, hr, hrp⟩)) (by simp [hT])
      rw [if_pos hx]
      simp

theorem lookupRepo_mem (repos : List TagRepo) (p : String)
    (h : p ∈ repos.map TagRepo.ModPath) :
    lookupRepo repos p ∈ repos ∧ (lookupRepo repos p).ModPath = p := by
  unfold lookupRepo
  obtain ⟨r, hr⟩ := Option.isSome_iff_exists.mp (lookupFold_isSome p repos h)
  rw [hr]
  exact lookupFold_some p repos r hr

theorem lookupRepo_not_mem (repos : List TagRepo) (p : String)
    (h : p ∉ repos.map TagRepo.ModPath) :
    lookupRepo repos p = zeroTagRepo := by
  unfold lookupRepo
  cases hT : repos.foldl (fun acc r => if r.ModPath = p then some r else acc) none with
  | none => rfl
  | some r =>
    obtain ⟨hmem, hpath⟩ := lookupFold_some p repos r hT
    exact absurd (List.mem_map.mpr ⟨r, hmem, hpath⟩) h

theorem lookupRepo_modPath (repos : List TagRepo) (d : String) :
    (lookupRepo repos d).ModPath ∈ "" :: repos.map TagRepo.ModPath := by
  by_cases h : d ∈ repos.map TagRepo.ModPath
  · rw [(lookupRepo_mem repos d h).2]
    exact List.mem_cons_of_mem _ h
  · rw [lookupRepo_not_mem repos d h]
    simp [zeroTagRepo]

theorem dedupLast_subset (repos : List TagRepo) : ∀ r ∈ dedupLast repos, r ∈ repos := by
  induction repos with
  | nil => simp [dedupLast]
  | cons x t ih =>
    intro r hr
    unfold dedupLast at hr
    by_cases hx : t.any (fun s => s.ModPath = x.ModPath)
    · rw [if_pos hx] at hr
      exact List.mem_cons_of_mem _ (ih r hr)
    · rw [if_neg hx] at hr
      rcases List.mem_cons.mp hr with rfl | hr
      · simp
      · exact List.mem_cons_of_mem _ (ih r hr)

theorem dedupLast_keys (repos : List TagRepo) (p : String) :
    p ∈ (dedupLast repos).map TagRepo.ModPath ↔ p ∈ repos.map TagRepo.ModPath := by
  induction repos with
  | nil => simp [dedupLast]
  | cons x t ih =>
    unfold dedupLast
    by_cases hx : t.any (fun s => s.ModPath = x.ModPath)
    · rw [if_pos hx]
      have hxk : x.ModPath ∈ t.map TagRepo.ModPath := by
        rcases List.any_eq_true.mp hx with ⟨s, hs, hsp⟩
        exact List.mem_map.mpr ⟨s, hs, by simpa using hsp⟩
      rw [ih]
      constructor
      · intro h; exact List.mem_cons_of_mem _ h
      · intro h
        rcases List.mem_cons.mp h with rfl | h
        · exact hxk
        · exact h
    · rw [if_neg hx]
      simp only [List.map_cons, List.mem_cons, ih]

theorem lookupRepo_dedupLast (repos : List TagRepo) :
    ∀ r ∈ dedupLast repos, lookupRepo repos r.ModPath = r := by
  induction repos with
  | nil => simp [dedupLast]
  | cons x t ih =>
    intro r hr
    unfold dedupLast at hr
    have hstep : lookupRepo (x :: t) r.ModPath =
        ((t.foldl (fun acc s => if s.ModPath = r.ModPath then some s else acc) none).or
          (if x.ModPath = r.ModPath then some x else none)).getD zeroTagRepo := by
      unfold lookupRepo
      rw [List.foldl_cons, lookupFold_or]
    by_cases hx : t.any (fun s => s.ModPath = x.ModPath)
    · rw [if_pos hx] at hr
      have hrT : lookupRepo t r.ModPath = r := ih r hr
      have hrt : r ∈ t := dedupLast_subset t r hr
      have hS : (t.foldl (fun acc s => if s.ModPath = r.ModPath then some s else acc) none).isSome :=
        lookupFold_isSome r.ModPath t (List.mem_map.mpr ⟨r, hrt, rfl⟩)
      obtain ⟨r2, hr2⟩ := Option.isSome_iff_exists.mp hS
      rw [hstep, hr2]
      unfold lookupRepo at hrT
      rw [hr2] at hrT
      simpa using hrT
    · rw [if_neg hx] at hr
      rcases List.mem_cons.mp hr with rfl | hr
      · have hx2 := hx
        simp only [List.any_eq_true, decide_eq_true_eq, not_exists, not_and] at hx2
        have hN : t.foldl (fun acc s => if s.ModPath = r.ModPath then some s else acc) none = none := by
          cases hT : t.foldl (fun acc s => if s.ModPath = r.ModPath then some s else acc) none with
          | none => rfl
          | some r2 =>
            obtain ⟨hmem, hpath⟩ := lookupFold_some r.ModPath t r2 hT
            exact absurd hpath (hx2 r2 hmem)
        rw [hstep, hN, if_pos rfl]
        rfl
      · have hrT : lookupRepo t r.ModPath = r := ih r hr
        have hrt : r ∈ t := dedupLast_subset t r hr
        have hS : (t.foldl (fun acc s => if s.ModPath = r.ModPath then some s else acc) none).isSome :=
          lookupFold_isSome r.ModPath t (List.mem_map.mpr ⟨r, hrt, rfl⟩)
        obtain ⟨r2, hr2⟩ := Option.isSome_iff_exists.mp hS
        rw [hstep, hr2]
        unfold lookupRepo at hrT
        rw [hr2] at hrT
        simpa using hrT

theorem dedupLast_of_nodup (repos : List TagRepo)
    (h : (repos.map TagRepo.ModPath).Nodup) : dedupLast repos = repos := by
  induction repos with
  | nil => rfl
  | cons x t ih =>
    rw [List.map_cons, List.nodup_cons] at h
    unfold dedupLast
    have hany : ¬ t.any (fun s => s.ModPath = x.ModPath) = true := by
      intro hc
      rcases List.any_eq_true.mp hc with ⟨s, hs, hsp⟩
      exact h.1 (List.mem_map.mpr ⟨s, hs, by simpa using hsp⟩)
    rw [if_neg hany, ih h.2]

theorem recordCycles_eq_nil_iff (stack : List String) (p : String) :
    recordCycles stack p = [] ↔ p ∉ stack := by
  induction stack with
  | nil => simp [recordCycles]
  | cons s rest ih =>
    unfold recordCycles
    by_cases hs : s = p
    · simp [hs]
    · simp [hs, ih, Ne.symm hs]

theorem checkCycles1_succ (f : String → TagRepo) (fuel : Nat) (repo : TagRepo)
    (stack : List String) :
    checkCycles1 f (fuel + 1) repo stack =
      if recordCycles stack repo.ModPath = [] then
        (repo.Deps.map (fun dep => checkCycles1 f fuel (f dep) (stack ++ [repo.ModPath]))).flatten
      else recordCycles stack repo.ModPath := rfl

theorem filter_remaining (l stack : List String) (p : String) (hnd : l.Nodup)
    (hp : p ∈ l) (hps : p ∉ stack) :
    (l.filter (fun x => ! (stack ++ [p]).contains x)).length + 1 =
    (l.filter (fun x => ! stack.contains x)).length := by
  have hsplit : l.filter (fun x => ! (stack ++ [p]).contains x) =
      (l.filter (fun x => ! stack.contains x)).filter (fun x => x != p) := by
    rw [List.filter_filter]
    apply List.filter_congr
    intro x _
    by_cases h1 : x ∈ stack <;> by_cases h2 : x = p <;> simp [h1, h2]
  have hmnd : ((l.filter (fun x => ! stack.contains x))).Nodup := List.Nodup.filter _ hnd
  have hpm : p ∈ l.filter (fun x => ! stack.contains x) := by
    rw [List.mem_filter]
    exact ⟨hp, by simp [hps]⟩
  have herase : (l.filter (fun x => ! stack.contains x)).filter (fun x => x != p) =
      (l.filter (fun x => ! stack.contains x)).erase p := (hmnd.erase_eq_filter p).symm
  have hlen := List.length_erase_of_mem hpm
  have hpos := List.length_pos_of_mem hpm
  rw [hsplit, herase]
  omega

theorem checkCycles1_stable (repos : List TagRepo) :
    ∀ n f1 f2 (stack : List String) (repo : TagRepo),
      ((("" :: repos.map TagRepo.ModPath).dedup).filter
        (fun x => ! stack.contains x)).length ≤ n →
      repo.ModPath ∈ "" :: repos.map TagRepo.ModPath →
      n < f1 → n < f2 →
      checkCycles1 (lookupRepo repos) f1 repo stack =
        checkCycles1 (lookupRepo repos) f2 repo stack := by
  intro n
  induction n with
  | zero =>
    intro f1 f2 stack repo hrem hmem h1 h2
    have hst : repo.ModPath ∈ stack := by
      by_contra hc
      have hin : repo.ModPath ∈ (("" :: repos.map TagRepo.ModPath).dedup).filter
          (fun x => ! stack.contains x) := by
        rw [List.mem_filter]
        exact ⟨List.mem_dedup.mpr hmem, by simp [hc]⟩
      have := List.length_pos_of_mem hin
      omega
    obtain ⟨a, rfl⟩ : ∃ a, f1 = a + 1 := ⟨f1 - 1, by omega⟩
    obtain ⟨b, rfl⟩ : ∃ b, f2 = b + 1 := ⟨f2 - 1, by omega⟩
    have hne : ¬ recordCycles stack repo.ModPath = [] :=
      fun h => (recordCycles_eq_nil_iff _ _).mp h hst
    rw [checkCycles1_succ, checkCycles1_succ, if_neg hne, if_neg hne]
  | succ n ih =>
    intro f1 f2 stack repo hrem hmem h1 h2
    obtain ⟨a, rfl⟩ : ∃ a, f1 = a + 1 := ⟨f1 - 1, by omega⟩
    obtain ⟨b, rfl⟩ : ∃ b, f2 = b + 1 := ⟨f2 - 1, by omega⟩
    rw [checkCycles1_succ, checkCycles1_succ]
    by_cases hst : repo.ModPath ∈ stack
    · have hne : ¬ recordCycles stack repo.ModPath = [] :=
        fun h => (recordCycles_eq_nil_iff _ _).mp h hst
      rw [if_neg hne, if_neg hne]
    · have heq : recordCycles stack repo.ModPath = [] :=
        (recordCycles_eq_nil_iff _ _).mpr hst
      rw [if_pos heq, if_pos heq]
      congr 1
      apply List.map_congr_left
      intro dep _
      apply ih
      · have hpd : repo.ModPath ∈ ("" :: repos.map TagRepo.ModPath).dedup :=
          List.mem_dedup.mpr hmem
        have := filter_remaining (("" :: repos.map TagRepo.ModPath).dedup) stack repo.ModPath
          (List.nodup_dedup _) hpd hst
        omega
      · exact lookupRepo_modPath repos dep
      · omega
      · omega

/-- C10: checkCycles terminates on every finite module set, cyclic or not:
the depth-first walk stops as soon as the current module already occurs on
the path stack, so its depth is bounded by the number of distinct module
paths (plus the empty path of missing dependencies) and the collected cycles
do not change when more fuel than cyclesFuel is supplied; a dependency absent
from the set looks up to the zero-valued module with no dependencies. -/
theorem c10_check_cycles_terminates (repos : List TagRepo) (fuel : Nat)
    (hfuel : cyclesFuel repos ≤ fuel) :
    collectCyclesWith fuel repos = collectCycles repos ∧
    (∀ d, d ∉ repos.map TagRepo.ModPath → lookupRepo repos d = zeroTagRepo) := by
  constructor
  · unfold collectCycles collectCyclesWith
    congr 1
    apply List.map_congr_left
    intro r hr
    apply checkCycles1_stable repos (repos.length + 1)
    · have h1 : (("" :: repos.map TagRepo.ModPath).dedup).length ≤ repos.length + 1 := by
        have h2 := List.Sublist.length_le
          (List.dedup_sublist ("" :: repos.map TagRepo.ModPath))
        simpa using h2
      have h3 : ((("" :: repos.map TagRepo.ModPath).dedup).filter
          (fun x => ! ([] : List String).contains x)).length =
          (("" :: repos.map TagRepo.ModPath).dedup).length := by
        simp
      omega
    · exact List.mem_cons_of_mem _
        (List.mem_map.mpr ⟨r, dedupLast_subset repos r hr, rfl⟩)
    · unfold cyclesFuel at hfuel; omega
    · unfold cyclesFuel; omega
  · exact fun d hd => lookupRepo_not_mem repos d hd

theorem c10_witness :
    cyclesFuel [⟨"a", "x/a", ["x/b"], ""⟩, ⟨"b", "x/b", ["x/a"], ""⟩] ≤ 9 ∧
    collectCyclesWith 9 [⟨"a", "x/a", ["x/b"], ""⟩, ⟨"b", "x/b", ["x/a"], ""⟩] =
      collectCycles [⟨"a", "x/a", ["x/b"], ""⟩, ⟨"b", "x/b", ["x/a"], ""⟩] :=
  ⟨by decide, (c10_check_cycles_terminates _ 9 (by decide)).1⟩

theorem checkCycles1_acyclic (repos : List TagRepo) (rank : String → Nat)
    (hrank : ∀ r ∈ repos, ∀ d ∈ r.Deps, rank d < rank r.ModPath)
    (hclosed : DepsClosed repos) :
    ∀ fuel (repo : TagRepo) (stack : List String),
      repo ∈ repos →
      (∀ s ∈ stack, rank repo.ModPath < rank s) →
      checkCycles1 (lookupRepo repos) fuel repo stack = [] := by
  intro fuel
  induction fuel with
  | zero => intro repo stack _ _; rfl
  | succ fuel ih =>
    intro repo stack hmem hstack
    have hnst : repo.ModPath ∉ stack := fun hc => lt_irrefl _ (hstack _ hc)
    rw [checkCycles1_succ, if_pos ((recordCycles_eq_nil_iff _ _).mpr hnst)]
    rw [List.flatten_eq_nil_iff]
    intro l hl
    rcases List.mem_map.mp hl with ⟨dep, hdep, rfl⟩
    have hdmem : dep ∈ repos.map TagRepo.ModPath := hclosed repo hmem dep hdep
    obtain ⟨hrd, hrdp⟩ := lookupRepo_mem repos dep hdmem
    apply ih (lookupRepo repos dep) (stack ++ [repo.ModPath]) hrd
    intro s hs
    rw [hrdp]
    rcases List.mem_append.mp hs with hs | hs
    · exact lt_trans (hrank repo hmem dep hdep) (hstack s hs)
    · simp at hs
      subst hs
      exact hrank repo hmem dep hdep

theorem checkCycles_acyclic (repos : List TagRepo) (hacy : Acyclic repos)
    (hclosed : DepsClosed repos) : checkCycles repos = [] := by
  obtain ⟨rank, hrank⟩ := hacy
  have hcol : collectCycles repos = [] := by
    unfold collectCycles collectCyclesWith
    rw [List.flatten_eq_nil_iff]
    intro l hl
    rcases List.mem_map.mp hl with ⟨r, hr, rfl⟩
    exact checkCycles1_acyclic repos rank hrank hclosed (cyclesFuel repos) r []
      (dedupLast_subset repos r hr) (by simp)
  rw [checkCycles, hcol]
  rfl

theorem contains_true_iff (l : List String) (a : String) : l.contains a = true ↔ a ∈ l :=
  List.elem_iff

theorem passPlan_cons (x : TagRepo) (t : List TagRepo) (updated : List String) :
    passPlan (x :: t) updated = passPlan t
      (if updated.contains x.ModPath then updated
       else if x.Deps.all (fun d => updated.contains d) then updated ++ [x.ModPath]
       else updated) := rfl

theorem passPlan_extend (repos : List TagRepo) :
    ∀ updated, ∃ t, passPlan repos updated = updated ++ t := by
  induction repos with
  | nil => intro updated; exact ⟨[], by simp [passPlan]⟩
  | cons x rest ih =>
    intro updated
    rw [passPlan_cons]
    by_cases h1 : updated.contains x.ModPath
    · rw [if_pos h1]; exact ih updated
    · rw [if_neg h1]
      by_cases h2 : x.Deps.all (fun d => updated.contains d)
      · rw [if_pos h2]
        obtain ⟨t, ht⟩ := ih (updated ++ [x.ModPath])
        exact ⟨[x.ModPath] ++ t, by rw [ht, List.append_assoc]⟩
      · rw [if_neg h2]; exact ih updated

theorem passPlan_sub (repos : List TagRepo) :
    ∀ updated, ∀ x ∈ passPlan repos updated,
      x ∈ updated ∨ x ∈ repos.map TagRepo.ModPath := by
  induction repos with
  | nil => intro updated x hx; exact Or.inl hx
  | cons r rest ih =>
    intro updated x hx
    rw [passPlan_cons] at hx
    by_cases h1 : updated.contains r.ModPath
    · rw [if_pos h1] at hx
      rcases ih updated x hx with h | h
      · exact Or.inl h
      · exact Or.inr (by simp [h])
    · rw [if_neg h1] at hx
      by_cases h2 : r.Deps.all (fun d => updated.contains d)
      · rw [if_pos h2] at hx
        rcases ih (updated ++ [r.ModPath]) x hx with h | h
        · rcases List.mem_append.mp h with h | h
          · exact Or.inl h
          · simp at h; subst h; exact Or.inr (by simp)
        · exact Or.inr (by simp [h])
      · rw [if_neg h2] at hx
        rcases ih updated x hx with h | h
        · exact Or.inl h
        · exact Or.inr (by simp [h])

theorem passPlan_nodup (repos : List TagRepo) :
    ∀ updated, updated.Nodup → (passPlan repos updated).Nodup := by
  induction repos with
  | nil => intro updated h; exact h
  | cons r rest ih =>
    intro updated h
    rw [passPlan_cons]
    by_cases h1 : updated.contains r.ModPath
    · rw [if_pos h1]; exact ih updated h
    · rw [if_neg h1]
      by_cases h2 : r.Deps.all (fun d => updated.contains d)
      · rw [if_pos h2]
        apply ih
        refine List.Nodup.append h (by simp) ?_
        intro b hb1 hb2
        simp at hb2
        subst hb2
        exact h1 ((contains_true_iff updated r.ModPath).mpr hb1)
      · rw [if_neg h2]; exact ih updated h

theorem passPlan_mono (repos : List TagRepo) (updated : List String) :
    ∀ x ∈ updated, x ∈ passPlan repos updated := by
  obtain ⟨t, ht⟩ := passPlan_extend repos updated
  intro x hx
  rw [ht]
  exact List.mem_append_left t hx

theorem mem_passPlan_of_ready (repos : List TagRepo) :
    ∀ updated (r : TagRepo), r ∈ repos → (∀ d ∈ r.Deps, d ∈ updated) →
      r.ModPath ∈ passPlan repos updated := by
  induction repos with
  | nil => intro _ r hr; exact absurd hr (List.not_mem_nil r)
  | cons x rest ih =>
    intro updated r hr hready
    rw [passPlan_cons]
    rcases List.mem_cons.mp hr with rfl | hr
    · by_cases h1 : updated.contains r.ModPath
      · rw [if_pos h1]
        exact passPlan_mono rest updated r.ModPath ((contains_true_iff _ _).mp h1)
      · rw [if_neg h1]
        have h2 : r.Deps.all (fun d => updated.contains d) = true := by
          rw [List.all_eq_true]
          intro d hd
          exact (contains_true_iff _ _).mpr (hready d hd)
        rw [if_pos h2]
        exact passPlan_mono rest _ r.ModPath (List.mem_append_right _ (by simp))
    · apply ih _ r hr
      intro d hd
      by_cases h1 : updated.contains x.ModPath
      · rw [if_pos h1]; exact hready d hd
      · rw [if_neg h1]
        by_cases h2 : x.Deps.all (fun d => updated.contains d)
        · rw [if_pos h2]; exact List.mem_append_left _ (hready d hd)
        · rw [if_neg h2]; exact hready d hd

theorem exists_min_rank {α : Type} (f : α → Nat) (l : List α) (h : l ≠ []) :
    ∃ a ∈ l, ∀ b ∈ l, f a ≤ f b := by
  induction l with
  | nil => exact absurd rfl h
  | cons x t ih =>
    cases t with
    | nil => exact ⟨x, by simp, by simp⟩
    | cons y s =>
      obtain ⟨a, ha, hmin⟩ := ih (by simp)
      by_cases hc : f x ≤ f a
      · refine ⟨x, by simp, ?_⟩
        intro b hb
        rcases List.mem_cons.mp hb with rfl | hb
        · exact le_rfl
        · exact le_trans hc (hmin b hb)
      · refine ⟨a, List.mem_cons_of_mem _ ha, ?_⟩
        intro b hb
        rcases List.mem_cons.mp hb with rfl | hb
        · omega
        · exact hmin b hb

theorem buildPlanLoop_complete (repos : List TagRepo) (rank : String → Nat)
    (hrank : ∀ r ∈ repos, ∀ d ∈ r.Deps, rank d < rank r.ModPath)
    (hclosed : DepsClosed repos) (hnd : (repos.map TagRepo.ModPath).Nodup) :
    ∀ fuel updated, updated.Nodup →
      (∀ x ∈ updated, x ∈ repos.map TagRepo.ModPath) →
      repos.length + 1 ≤ fuel + updated.length →
      ∃ planned, buildPlanLoop fuel repos updated = Except.ok planned ∧
        (∀ x ∈ updated, x ∈ planned) ∧ ∀ r ∈ repos, r.ModPath ∈ planned := by
  intro fuel
  induction fuel with
  | zero =>
    intro updated hund hsub hfuel
    exfalso
    have hle := (hund.subperm hsub).length_le
    rw [List.length_map] at hle
    omega
  | succ fuel ih =>
    intro updated hund hsub hfuel
    rw [buildPlanLoop_succ]
    by_cases hl : updated.length = repos.length
    · rw [if_pos hl]
      refine ⟨updated, rfl, fun x hx => hx, ?_⟩
      have hperm : updated.Perm (repos.map TagRepo.ModPath) := by
        apply (hund.subperm hsub).perm_of_length_le
        rw [List.length_map]
        omega
      intro r hr
      exact hperm.mem_iff.mpr (List.mem_map.mpr ⟨r, hr, rfl⟩)
    · rw [if_neg hl]
      have hexu : ∃ r ∈ repos, r.ModPath ∉ updated := by
        by_contra hc
        push_neg at hc
        have hsub2 : (repos.map TagRepo.ModPath) ⊆ updated := by
          intro p hp
          rcases List.mem_map.mp hp with ⟨r, hr, rfl⟩
          exact hc r hr
        have h4 := (hnd.subperm hsub2).length_le
        have hle := (hund.subperm hsub).length_le
        rw [List.length_map] at h4 hle
        omega
      have hne : repos.filter (fun r => ! updated.contains r.ModPath) ≠ [] := by
        obtain ⟨r, hr, hru⟩ := hexu
        intro hc
        have hmemf : r ∈ repos.filter (fun r => ! updated.contains r.ModPath) := by
          rw [List.mem_filter]
          refine ⟨hr, ?_⟩
          simp only [Bool.not_eq_true']
          exact (Bool.not_eq_true _).mp (fun ht => hru ((contains_true_iff _ _).mp ht))
        rw [hc] at hmemf
        exact absurd hmemf (List.not_mem_nil r)
      obtain ⟨rm, hrm, hrmin⟩ := exists_min_rank (fun r => rank r.ModPath) _ hne
      rw [List.mem_filter] at hrm
      obtain ⟨hrmem, hrmb⟩ := hrm
      have hrmu : rm.ModPath ∉ updated := by
        intro hc
        rw [(contains_true_iff _ _).mpr hc] at hrmb
        simp at hrmb
      have hready : ∀ d ∈ rm.Deps, d ∈ updated := by
        intro d hd
        by_contra hdc
        have hdp : d ∈ repos.map TagRepo.ModPath := hclosed rm hrmem d hd
        obtain ⟨hrd, hrdp⟩ := lookupRepo_mem repos d hdp
        have hmemf : lookupRepo repos d ∈
            repos.filter (fun r => ! updated.contains r.ModPath) := by
          rw [List.mem_filter]
          refine ⟨hrd, ?_⟩
          rw [hrdp]
          have hcf : updated.contains d = false :=
            Bool.eq_false_iff.mpr (fun ht => hdc ((contains_true_iff _ _).mp ht))
          rw [hcf]
          rfl
        have hge := hrmin _ hmemf
        rw [hrdp] at hge
        exact absurd (hrank rm hrmem d hd) (by omega)
      have hmem_next : rm.ModPath ∈ passPlan repos updated :=
        mem_passPlan_of_ready repos updated rm hrmem hready
      obtain ⟨ext, hext⟩ := passPlan_extend repos updated
      have hgrow : updated.length < (passPlan repos updated).length := by
        rw [hext, List.length_append]
        have hextne : ext ≠ [] := by
          intro hc
          rw [hc, List.append_nil] at hext
          rw [hext] at hmem_next
          exact hrmu hmem_next
        have := List.length_pos_of_ne_nil hextne
        omega
      rw [if_neg (by omega)]
      obtain ⟨planned, hplan, hsubp, hall⟩ := ih (passPlan repos updated)
        (passPlan_nodup repos updated hund)
        (fun x hx => by
          rcases passPlan_sub repos updated x hx with h | h
          · exact hsub x h
          · exact h)
        (by omega)
      exact ⟨planned, hplan,
        fun x hx => hsubp x (passPlan_mono repos updated x hx), hall⟩

/-- C1 fails as frozen: an acyclic single-module set whose dependency is
absent from the set yields zero cycles but BuildPlan aborts with the
deadlock error instead of planning the module. -/
theorem c1_counterexample :
    Acyclic [⟨"tools", "golang.org/x/tools", ["golang.org/x/mod"], ""⟩] ∧
    checkCycles [⟨"tools", "golang.org/x/tools", ["golang.org/x/mod"], ""⟩] = [] ∧
    BuildPlan [⟨"tools", "golang.org/x/tools", ["golang.org/x/mod"], ""⟩] =
      Except.error ["tools"] :=
  ⟨⟨fun p => if p = "golang.org/x/tools" then 1 else 0, by decide⟩, by decide, by decide⟩

/-- C1 (amended): for a module set with distinct module paths whose
dependencies all refer to modules of the set, acyclicity of the dependency
graph gives checkCycles = [] and BuildPlan succeeds with every module of the
set planned. -/
theorem c1_acyclic_plans_all (repos : List TagRepo)
    (hacy : Acyclic repos) (hclosed : DepsClosed repos)
    (hnd : (repos.map TagRepo.ModPath).Nodup) :
    checkCycles repos = [] ∧
    ∃ planned, BuildPlan repos = Except.ok planned ∧
      ∀ r ∈ repos, r.ModPath ∈ planned := by
  obtain ⟨rank, hrank⟩ := hacy
  refine ⟨checkCycles_acyclic repos ⟨rank, hrank⟩ hclosed, ?_⟩
  obtain ⟨planned, hplan, _, hall⟩ := buildPlanLoop_complete repos rank hrank hclosed hnd
    (repos.length + 1) [] List.nodup_nil (by simp) (by simp)
  exact ⟨planned, hplan, hall⟩

theorem c1_witness :
    Acyclic [⟨"b", "x/b", ["x/a"], ""⟩, ⟨"a", "x/a", [], ""⟩] ∧
    DepsClosed [⟨"b", "x/b", ["x/a"], ""⟩, ⟨"a", "x/a", [], ""⟩] ∧
    ((([⟨"b", "x/b", ["x/a"], ""⟩, ⟨"a", "x/a", [], ""⟩] : List TagRepo).map
      TagRepo.ModPath).Nodup) ∧
    (checkCycles [⟨"b", "x/b", ["x/a"], ""⟩, ⟨"a", "x/a", [], ""⟩] = [] ∧
     ∃ planned, BuildPlan [⟨"b", "x/b", ["x/a"], ""⟩, ⟨"a", "x/a", [], ""⟩] =
        Except.ok planned ∧
      ∀ r ∈ ([⟨"b", "x/b", ["x/a"], ""⟩, ⟨"a", "x/a", [], ""⟩] : List TagRepo),
        r.ModPath ∈ planned) :=
  ⟨⟨fun p => if p = "x/b" then 1 else 0, by decide⟩, by unfold DepsClosed; decide, by decide,
    c1_acyclic_plans_all _ ⟨fun p => if p = "x/b" then 1 else 0, by decide⟩
      (by unfold DepsClosed; decide) (by decide)⟩

theorem flatten_ne_nil {α β : Type} (g : α → List β) (l : List α) (x : α)
    (hx : x ∈ l) (hg : g x ≠ []) : (l.map g).flatten ≠ [] := by
  intro hc
  rw [List.flatten_eq_nil_iff] at hc
  exact hg (hc (g x) (List.mem_map.mpr ⟨x, hx, rfl⟩))

theorem walk_finds_cycle (f : String → TagRepo) :
    ∀ (mid : List String) (w : String) (stack : List String) (u : String),
      IsDepPath f u (mid ++ [w]) →
      w ∈ stack ++ u :: mid →
      (∀ x ∈ u :: mid, (f x).ModPath = x) →
      (∀ x ∈ stack, (f x).ModPath = x) →
      ∀ fuel, mid.length + 2 ≤ fuel →
      checkCycles1 f fuel (f u) stack ≠ [] := by
  intro mid
  induction mid with
  | nil =>
    intro w stack u hpath hw hpres hstackp fuel hfuel
    obtain ⟨a, rfl⟩ : ∃ a, fuel = a + 1 := ⟨fuel - 1, by omega⟩
    have hu : (f u).ModPath = u := hpres u (by simp)
    rw [checkCycles1_succ, hu]
    by_cases hst : u ∈ stack
    · rw [if_neg (fun h => (recordCycles_eq_nil_iff _ _).mp h hst)]
      exact fun h => (recordCycles_eq_nil_iff _ _).mp h hst
    · rw [if_pos ((recordCycles_eq_nil_iff _ _).mpr hst)]
      have hedge : w ∈ (f u).Deps := hpath.1
      apply flatten_ne_nil _ _ w hedge
      obtain ⟨b, rfl⟩ : ∃ b, a = b + 1 := ⟨a - 1, by omega⟩
      have hwp : (f w).ModPath = w := by
        rcases List.mem_append.mp hw with hws | hwu
        · exact hstackp w hws
        · simp at hwu
          subst hwu
          exact hu
      rw [checkCycles1_succ, hwp]
      have hwin : w ∈ stack ++ [u] := by
        rcases List.mem_append.mp hw with hws | hwu
        · exact List.mem_append_left _ hws
        · simp at hwu
          subst hwu
          exact List.mem_append_right _ (by simp)
      rw [if_neg (fun h => (recordCycles_eq_nil_iff _ _).mp h hwin)]
      exact fun h => (recordCycles_eq_nil_iff _ _).mp h hwin
  | cons v mid2 ih =>
    intro w stack u hpath hw hpres hstackp fuel hfuel
    obtain ⟨a, rfl⟩ : ∃ a, fuel = a + 1 := ⟨fuel - 1, by omega⟩
    have hu : (f u).ModPath = u := hpres u (by simp)
    rw [checkCycles1_succ, hu]
    by_cases hst : u ∈ stack
    · rw [if_neg (fun h => (recordCycles_eq_nil_iff _ _).mp h hst)]
      exact fun h => (recordCycles_eq_nil_iff _ _).mp h hst
    · rw [if_pos ((recordCycles_eq_nil_iff _ _).mpr hst)]
      have hedge : v ∈ (f u).Deps := hpath.1
      apply flatten_ne_nil _ _ v hedge
      apply ih w (stack ++ [u]) v hpath.2
      · rcases List.mem_append.mp hw with hws | hwu
        · exact List.mem_append_left _ (List.mem_append_left _ hws)
        · rcases List.mem_cons.mp hwu with rfl | hwu
          · exact List.mem_append_left _ (List.mem_append_right _ (by simp))
          · exact List.mem_append_right _ hwu
      · intro x hx
        exact hpres x (List.mem_cons_of_mem _ hx)
      · intro x hx
        rcases List.mem_append.mp hx with hxs | hxu
        · exact hstackp x hxs
        · simp at hxu
          subst hxu
          exact hu
      · simp at hfuel ⊢
        omega

theorem lookupRepo_perm (repos repos2 : List TagRepo)
    (hperm : repos2.Perm repos) (hnd : (repos.map TagRepo.ModPath).Nodup) :
    ∀ p, lookupRepo repos2 p = lookupRepo repos p := by
  intro p
  by_cases h : p ∈ repos.map TagRepo.ModPath
  · have h2 : p ∈ repos2.map TagRepo.ModPath := ((hperm.map TagRepo.ModPath).mem_iff).mpr h
    obtain ⟨m1, p1⟩ := lookupRepo_mem repos p h
    obtain ⟨m2, p2⟩ := lookupRepo_mem repos2 p h2
    exact List.inj_on_of_nodup_map hnd (hperm.mem_iff.mp m2) m1 (by rw [p1, p2])
  · rw [lookupRepo_not_mem repos p h, lookupRepo_not_mem repos2 p
      (fun hc => h (((hperm.map TagRepo.ModPath).mem_iff).mp hc))]

theorem mem_collectCycles_iff (repos : List TagRepo) (c : List String) :
    c ∈ collectCycles repos ↔ ∃ r ∈ dedupLast repos,
      c ∈ checkCycles1 (lookupRepo repos) (cyclesFuel repos) r [] := by
  unfold collectCycles collectCyclesWith
  rw [List.mem_flatten]
  constructor
  · intro ⟨l, hl, hc⟩
    rcases List.mem_map.mp hl with ⟨r, hr, rfl⟩
    exact ⟨r, hr, hc⟩
  · intro ⟨r, hr, hc⟩
    exact ⟨_, List.mem_map.mpr ⟨r, hr, rfl⟩, hc⟩

/-- C8: a module set containing a dependency cycle (over modules of the set)
makes checkCycles report at least one cycle, every reported cycle being of
globally minimum length among the discovered ones, and the reported cycle
set is the same — as a set under exact sequence equality — for any two
iteration orders of the same module set. -/
theorem c8_cycle_reported_and_stable (repos repos2 : List TagRepo)
    (hperm : repos2.Perm repos)
    (hnd : (repos.map TagRepo.ModPath).Nodup)
    (u : String) (mid : List String)
    (hpath : IsDepPath (lookupRepo repos) u (mid ++ [u]))
    (hndc : (u :: mid).Nodup)
    (hpres : ∀ x ∈ u :: mid, x ∈ repos.map TagRepo.ModPath) :
    checkCycles repos ≠ [] ∧
    (∀ c ∈ checkCycles repos, ∀ d ∈ collectCycles repos, c.length ≤ d.length) ∧
    (∀ c, c ∈ checkCycles repos ↔ c ∈ checkCycles repos2) := by
  have hcolne : collectCycles repos ≠ [] := by
    have hukey : u ∈ (dedupLast repos).map TagRepo.ModPath :=
      (dedupLast_keys repos u).mpr (hpres u (by simp))
    rcases List.mem_map.mp hukey with ⟨r, hr, hru⟩
    have hfu : lookupRepo repos u = r := by
      rw [← hru]
      exact lookupRepo_dedupLast repos r hr
    have hlen : mid.length + 2 ≤ cyclesFuel repos := by
      have hsp := (hndc.subperm hpres).length_le
      rw [List.length_map] at hsp
      simp at hsp
      unfold cyclesFuel
      omega
    have hwalk : checkCycles1 (lookupRepo repos) (cyclesFuel repos) r [] ≠ [] := by
      rw [← hfu]
      apply walk_finds_cycle (lookupRepo repos) mid u [] u hpath (by simp)
      · intro x hx
        exact (lookupRepo_mem repos x (hpres x hx)).2
      · simp
      · exact hlen
    unfold collectCycles collectCyclesWith
    exact flatten_ne_nil _ _ r hr hwalk
  refine ⟨fun hc => hcolne (((shortInv_shortestOf (collectCycles repos)).1) hc), ?_, ?_⟩
  · obtain ⟨_, _, _, hmin, _, _⟩ := shortInv_shortestOf (collectCycles repos)
    exact hmin
  · have hnd2 : (repos2.map TagRepo.ModPath).Nodup :=
      ((hperm.map TagRepo.ModPath).nodup_iff).mpr hnd
    have hfun : lookupRepo repos2 = lookupRepo repos :=
      funext (lookupRepo_perm repos repos2 hperm hnd)
    have hfuel : cyclesFuel repos2 = cyclesFuel repos := by
      unfold cyclesFuel
      rw [hperm.length_eq]
    have hcoliff : ∀ c, c ∈ collectCycles repos ↔ c ∈ collectCycles repos2 := by
      intro c
      rw [mem_collectCycles_iff, mem_collectCycles_iff,
        dedupLast_of_nodup repos hnd, dedupLast_of_nodup repos2 hnd2, hfun, hfuel]
      constructor
      · intro ⟨r, hr, hc⟩
        exact ⟨r, hperm.mem_iff.mpr hr, hc⟩
      · intro ⟨r, hr, hc⟩
        exact ⟨r, hperm.mem_iff.mp hr, hc⟩
    intro c
    rw [checkCycles, checkCycles, mem_shortestOf_iff, mem_shortestOf_iff]
    constructor
    · intro ⟨h1, h2⟩
      exact ⟨(hcoliff c).mp h1, fun d hd => h2 d ((hcoliff d).mpr hd)⟩
    · intro ⟨h1, h2⟩
      exact ⟨(hcoliff c).mpr h1, fun d hd => h2 d ((hcoliff d).mp hd)⟩

theorem c8_witness :
    (([⟨"b", "x/b", ["x/a"], ""⟩, ⟨"a", "x/a", ["x/b"], ""⟩] : List TagRepo).Perm
      [⟨"a", "x/a", ["x/b"], ""⟩, ⟨"b", "x/b", ["x/a"], ""⟩]) ∧
    IsDepPath (lookupRepo [⟨"a", "x/a", ["x/b"], ""⟩, ⟨"b", "x/b", ["x/a"], ""⟩])
      "x/a" (["x/b"] ++ ["x/a"]) ∧
    checkCycles [⟨"a", "x/a", ["x/b"], ""⟩, ⟨"b", "x/b", ["x/a"], ""⟩] ≠ [] ∧
    (∀ c, c ∈ checkCycles [⟨"a", "x/a", ["x/b"], ""⟩, ⟨"b", "x/b", ["x/a"], ""⟩] ↔
      c ∈ checkCycles [⟨"b", "x/b", ["x/a"], ""⟩, ⟨"a", "x/a", ["x/b"], ""⟩]) := by
  have h := c8_cycle_reported_and_stable
    [⟨"a", "x/a", ["x/b"], ""⟩, ⟨"b", "x/b", ["x/a"], ""⟩]
    [⟨"b", "x/b", ["x/a"], ""⟩, ⟨"a", "x/a", ["x/b"], ""⟩]
    (by decide) (by decide) "x/a" ["x/b"]
    ⟨by unfold depEdge; decide, by unfold depEdge; decide, trivial⟩ (by decide) (by decide)
  exact ⟨by decide, ⟨by unfold depEdge; decide, by unfold depEdge; decide, trivial⟩, h.1, h.2.2⟩

theorem digitChar_spec (d : Nat) (hd : d < 10) :
    (digitChar d).isDigit = true ∧ digitVal (digitChar d) = d ∧
      ((digitChar d).isDigit = true → True) ∧ (digitChar d = '0' → d = 0) := by
  unfold digitChar digitVal
  interval_cases d <;> exact ⟨by decide, by decide, fun _ => trivial, by decide⟩

theorem digitsToNat_append_one (l : List Char) (c : Char) :
    digitsToNat (l ++ [c]) = 10 * digitsToNat l + digitVal c := by
  unfold digitsToNat
  rw [List.foldl_append]
  rfl

theorem natDigitsAux_spec : ∀ fuel n, n < fuel →
    (natDigitsAux fuel n).all Char.isDigit = true ∧
    digitsToNat (natDigitsAux fuel n) = n ∧
    natDigitsAux fuel n ≠ [] ∧
    ((natDigitsAux fuel n).head? = some '0' → n = 0) := by
  intro fuel
  induction fuel with
  | zero => intro n hn; omega
  | succ fuel ih =>
    intro n hn
    unfold natDigitsAux
    by_cases h10 : n < 10
    · rw [if_pos h10]
      obtain ⟨hdig, hval, _, hzero⟩ := digitChar_spec n h10
      refine ⟨by simp [hdig], ?_, by simp, ?_⟩
      · unfold digitsToNat
        simp [hval]
      · intro hh
        simp at hh
        exact hzero hh
    · rw [if_neg h10]
      have hrec : n / 10 < fuel := by omega
      obtain ⟨hall, hval, hne, hzero⟩ := ih (n / 10) hrec
      obtain ⟨hdig, hdval, _, _⟩ := digitChar_spec (n % 10) (by omega)
      refine ⟨?_, ?_, by simp, ?_⟩
      · rw [List.all_append]
        simp only [hall, Bool.true_and]
        simp [hdig]
      · rw [digitsToNat_append_one, hval, hdval]
        omega
      · intro hh
        cases hx : natDigitsAux fuel (n / 10) with
        | nil => exact absurd hx hne
        | cons c rest =>
          rw [hx] at hh
          simp at hh
          have hz := hzero (by rw [hx]; simp [hh])
          omega

theorem natDigits_spec (n : Nat) :
    (natDigits n).all Char.isDigit = true ∧
    digitsToNat (natDigits n) = n ∧
    canonicalDigits (natDigits n) = true := by
  obtain ⟨hall, hval, hne, hzero⟩ := natDigitsAux_spec (n + 1) n (by omega)
  refine ⟨hall, hval, ?_⟩
  unfold canonicalDigits natDigits
  rw [hall]
  have h1 : (natDigitsAux (n + 1) n).isEmpty = false := by
    cases hx : natDigitsAux (n + 1) n with
    | nil => exact absurd hx hne
    | cons c rest => rfl
  rw [h1]
  by_cases hz : (natDigitsAux (n + 1) n).head? = some '0'
  · have hn0 : n = 0 := hzero hz
    subst hn0
    decide
  · simp [hz]

theorem takeWhile_append_all (p : Char → Bool) (l m : List Char)
    (h : ∀ c ∈ l, p c = true) : (l ++ m).takeWhile p = l ++ m.takeWhile p := by
  induction l with
  | nil => simp
  | cons c rest ih =>
    rw [List.cons_append, List.takeWhile_cons_of_pos (h c (by simp)),
      ih (fun c hc => h c (by simp [hc]))]
    rfl

theorem dropWhile_append_all (p : Char → Bool) (l m : List Char)
    (h : ∀ c ∈ l, p c = true) : (l ++ m).dropWhile p = m.dropWhile p := by
  induction l with
  | nil => simp
  | cons c rest ih =>
    rw [List.cons_append, List.dropWhile_cons_of_pos (h c (by simp))]
    exact ih (fun c hc => h c (by simp [hc]))

theorem parseNumL_exact (d : List Char) (m : List Char)
    (hcan : canonicalDigits d = true)
    (hm : m.takeWhile Char.isDigit = [] ∧ m.dropWhile Char.isDigit = m) :
    parseNumL (d ++ m) = some (digitsToNat d, m) := by
  have hall : ∀ c ∈ d, Char.isDigit c = true := by
    unfold canonicalDigits at hcan
    intro c hc
    have := List.all_eq_true.mp (by
      cases h1 : d.all Char.isDigit
      · rw [h1] at hcan; simp at hcan
      · rfl) c hc
    exact this
  unfold parseNumL
  rw [takeWhile_append_all _ _ _ hall, dropWhile_append_all _ _ _ hall, hm.1, hm.2,
    List.append_nil, if_pos hcan]

theorem canonical_parts (d : List Char) (h : canonicalDigits d = true) :
    d.isEmpty = false ∧ ∀ c ∈ d, Char.isDigit c = true := by
  unfold canonicalDigits at h
  rw [Bool.and_eq_true, Bool.and_eq_true] at h
  obtain ⟨⟨h1, h2⟩, _⟩ := h
  exact ⟨by simpa using h1, List.all_eq_true.mp h2⟩

theorem takeWhile_digits_dot (d tail : List Char)
    (hall : ∀ c ∈ d, Char.isDigit c = true) :
    (d ++ '.' :: tail).takeWhile Char.isDigit = d ∧
    (d ++ '.' :: tail).dropWhile Char.isDigit = '.' :: tail := by
  constructor
  · rw [takeWhile_append_all _ _ _ hall, List.takeWhile_cons_of_neg (by decide)]
    simp
  · rw [dropWhile_append_all _ _ _ hall, List.dropWhile_cons_of_neg (by decide)]

theorem parseNumL_inv (cs : List Char) (n : Nat) (r : List Char)
    (h : parseNumL cs = some (n, r)) :
    cs = cs.takeWhile Char.isDigit ++ r ∧
    canonicalDigits (cs.takeWhile Char.isDigit) = true ∧
    digitsToNat (cs.takeWhile Char.isDigit) = n := by
  simp only [parseNumL] at h
  by_cases hc : canonicalDigits (cs.takeWhile Char.isDigit) = true
  · rw [if_pos hc] at h
    simp at h
    obtain ⟨h1, h2⟩ := h
    refine ⟨?_, hc, h1⟩
    conv_lhs => rw [← List.takeWhile_append_dropWhile (p := Char.isDigit) (l := cs)]
    rw [h2]
  · rw [if_neg hc] at h
    exact absurd h (by simp)

theorem parseVerL_v (rest : List Char) : parseVerL ('v' :: rest) = parseVerMajor rest := rfl

theorem parseVerMajor_eq (cs : List Char) (ma : Nat) (r : List Char)
    (h : parseNumL cs = some (ma, r)) : parseVerMajor cs = parseVerDot1 ma r := by
  unfold parseVerMajor
  rw [h]

theorem parseVerMinor_eq (ma : Nat) (cs : List Char) (mi : Nat) (r : List Char)
    (h : parseNumL cs = some (mi, r)) : parseVerMinor ma cs = parseVerDot2 ma mi r := by
  unfold parseVerMinor
  rw [h]

theorem parseVerPatch_eq (ma mi : Nat) (cs : List Char) (pa : Nat) (r : List Char)
    (h : parseNumL cs = some (pa, r)) : parseVerPatch ma mi cs = parseVerRest ma mi pa r := by
  unfold parseVerPatch
  rw [h]

theorem parseVerDot1_dot (ma : Nat) (rest : List Char) :
    parseVerDot1 ma ('.' :: rest) = parseVerMinor ma rest := rfl

theorem parseVerDot2_dot (ma mi : Nat) (rest : List Char) :
    parseVerDot2 ma mi ('.' :: rest) = parseVerPatch ma mi rest := rfl

theorem parseVerL_build (d1 : List Char) (mi : Nat) (hd1 : canonicalDigits d1 = true) :
    parseVerL ('v' :: (d1 ++ '.' :: (natDigits mi ++ ['.', '0']))) =
      some ⟨digitsToNat d1, mi, 0, ""⟩ := by
  obtain ⟨hallm, hvalm, hcanm⟩ := natDigits_spec mi
  rw [parseVerL_v,
    parseVerMajor_eq _ (digitsToNat d1) ('.' :: (natDigits mi ++ ['.', '0']))
      (parseNumL_exact d1 _ hd1
        ⟨List.takeWhile_cons_of_neg (by decide), List.dropWhile_cons_of_neg (by decide)⟩),
    parseVerDot1_dot,
    parseVerMinor_eq _ _ mi ['.', '0']
      (by
        have := parseNumL_exact (natDigits mi) ['.', '0'] hcanm ⟨by decide, by decide⟩
        rw [this, hvalm]),
    parseVerDot2_dot,
    parseVerPatch_eq _ _ _ 0 [] (by decide)]
  rfl

theorem parseVerL_shape (cs : List Char) (sv : semversion) (h : parseVerL cs = some sv) :
    ∃ d1 d2 d3 rest,
      cs = 'v' :: (d1 ++ '.' :: (d2 ++ '.' :: (d3 ++ rest))) ∧
      canonicalDigits d1 = true ∧ canonicalDigits d2 = true ∧ canonicalDigits d3 = true ∧
      digitsToNat d1 = sv.Major ∧ digitsToNat d2 = sv.Minor ∧ digitsToNat d3 = sv.Patch ∧
      ((rest = [] ∧ sv.Pre = "") ∨
        ∃ p, rest = '-' :: p ∧ p.isEmpty = false ∧ sv.Pre = String.mk p) := by
  cases cs with
  | nil => exact absurd h (by simp [parseVerL])
  | cons c rest0 =>
    simp only [parseVerL] at h
    by_cases hcv : c = 'v'
    case neg => rw [if_neg hcv] at h; exact absurd h (by simp)
    case pos =>
    subst hcv
    rw [if_pos rfl] at h
    unfold parseVerMajor at h
    cases hp1 : parseNumL rest0 with
    | none => rw [hp1] at h; exact absurd h (by simp)
    | some pr1 =>
    obtain ⟨ma, r1⟩ := pr1
    rw [hp1] at h
    obtain ⟨hsplit1, hcan1, hval1⟩ := parseNumL_inv rest0 ma r1 hp1
    cases r1 with
    | nil => exact absurd h (by simp [parseVerDot1])
    | cons c1 r1t =>
    simp only [parseVerDot1] at h
    by_cases hc1 : c1 = '.'
    case neg => rw [if_neg hc1] at h; exact absurd h (by simp)
    case pos =>
    subst hc1
    rw [if_pos rfl] at h
    unfold parseVerMinor at h
    cases hp2 : parseNumL r1t with
    | none => rw [hp2] at h; exact absurd h (by simp)
    | some pr2 =>
    obtain ⟨mi, r2⟩ := pr2
    rw [hp2] at h
    obtain ⟨hsplit2, hcan2, hval2⟩ := parseNumL_inv r1t mi r2 hp2
    cases r2 with
    | nil => exact absurd h (by simp [parseVerDot2])
    | cons c2 r2t =>
    simp only [parseVerDot2] at h
    by_cases hc2 : c2 = '.'
    case neg => rw [if_neg hc2] at h; exact absurd h (by simp)
    case pos =>
    subst hc2
    rw [if_pos rfl] at h
    unfold parseVerPatch at h
    cases hp3 : parseNumL r2t with
    | none => rw [hp3] at h; exact absurd h (by simp)
    | some pr3 =>
    obtain ⟨pa, r3⟩ := pr3
    rw [hp3] at h
    obtain ⟨hsplit3, hcan3, hval3⟩ := parseNumL_inv r2t pa r3 hp3
    refine ⟨rest0.takeWhile Char.isDigit, r1t.takeWhile Char.isDigit,
      r2t.takeWhile Char.isDigit, r3, ?_, hcan1, hcan2, hcan3, ?_, ?_, ?_, ?_⟩
    · rw [← hsplit3, ← hsplit2, ← hsplit1]
    · cases r3 with
      | nil =>
        simp only [parseVerRest] at h
        injection h with h
        rw [← h, hval1]
      | cons c3 pre =>
        simp only [parseVerRest] at h
        by_cases hc3 : c3 = '-'
        · rw [if_pos hc3] at h
          by_cases hpe : pre.isEmpty = true
          · rw [if_pos hpe] at h; exact absurd h (by simp)
          · rw [if_neg hpe] at h
            injection h with h
            rw [← h, hval1]
        · rw [if_neg hc3] at h; exact absurd h (by simp)
    · cases r3 with
      | nil =>
        simp only [parseVerRest] at h
        injection h with h
        rw [← h, hval2]
      | cons c3 pre =>
        simp only [parseVerRest] at h
        by_cases hc3 : c3 = '-'
        · rw [if_pos hc3] at h
          by_cases hpe : pre.isEmpty = true
          · rw [if_pos hpe] at h; exact absurd h (by simp)
          · rw [if_neg hpe] at h
            injection h with h
            rw [← h, hval2]
        · rw [if_neg hc3] at h; exact absurd h (by simp)
    · cases r3 with
      | nil =>
        simp only [parseVerRest] at h
        injection h with h
        rw [← h, hval3]
      | cons c3 pre =>
        simp only [parseVerRest] at h
        by_cases hc3 : c3 = '-'
        · rw [if_pos hc3] at h
          by_cases hpe : pre.isEmpty = true
          · rw [if_pos hpe] at h; exact absurd h (by simp)
          · rw [if_neg hpe] at h
            injection h with h
            rw [← h, hval3]
        · rw [if_neg hc3] at h; exact absurd h (by simp)
    · cases r3 with
      | nil =>
        simp only [parseVerRest] at h
        injection h with h
        exact Or.inl ⟨rfl, by rw [← h]⟩
      | cons c3 pre =>
        simp only [parseVerRest] at h
        by_cases hc3 : c3 = '-'
        · rw [if_pos hc3] at h
          by_cases hpe : pre.isEmpty = true
          · rw [if_pos hpe] at h; exact absurd h (by simp)
          · rw [if_neg hpe] at h
            injection h with h
            subst hc3
            exact Or.inr ⟨pre, rfl, by
              cases hx : pre.isEmpty
              · rfl
              · exact absurd hx hpe, by rw [← h]⟩
        · rw [if_neg hc3] at h; exact absurd h (by simp)

theorem nextMinorDot_dot (d1 rest2 : List Char) :
    nextMinorDot d1 ('.' :: rest2) = nextMinorTail d1 rest2 := rfl

theorem nextMinorL_v (rest : List Char) :
    nextMinorL ('v' :: rest) =
      if (rest.takeWhile Char.isDigit).isEmpty then none
      else nextMinorDot (rest.takeWhile Char.isDigit) (rest.dropWhile Char.isDigit) := rfl

theorem nextMinorTail_build (d1 d2 tail : List Char)
    (hne2 : d2.isEmpty = false) (hall2 : ∀ c ∈ d2, Char.isDigit c = true) :
    nextMinorTail d1 (d2 ++ '.' :: tail) =
      some ('v' :: d1 ++ '.' :: natDigits (digitsToNat d2 + 1) ++ ['.', '0']) := by
  obtain ⟨htw, hdw⟩ := takeWhile_digits_dot d2 tail hall2
  unfold nextMinorTail
  rw [htw, hdw, hne2]
  rfl

theorem nextMinor_of_parse (cs : List Char) (sv : semversion)
    (h : parseVerL cs = some sv) :
    ∃ out, nextMinorL cs = some out ∧
      parseVerL out = some ⟨sv.Major, sv.Minor + 1, 0, ""⟩ := by
  obtain ⟨d1, d2, d3, rest, hshape, hcan1, hcan2, hcan3, hval1, hval2, hval3, _⟩ :=
    parseVerL_shape cs sv h
  obtain ⟨hne1, hall1⟩ := canonical_parts d1 hcan1
  obtain ⟨hne2, hall2⟩ := canonical_parts d2 hcan2
  obtain ⟨htw1, hdw1⟩ := takeWhile_digits_dot d1 (d2 ++ '.' :: (d3 ++ rest)) hall1
  subst hshape
  refine ⟨'v' :: d1 ++ '.' :: natDigits (digitsToNat d2 + 1) ++ ['.', '0'], ?_, ?_⟩
  · rw [nextMinorL_v, htw1, hdw1, hne1, if_neg Bool.false_ne_true, nextMinorDot_dot,
      nextMinorTail_build d1 d2 (d3 ++ rest) hne2 hall2]
  · rw [show ('v' :: d1 ++ '.' :: natDigits (digitsToNat d2 + 1) ++ ['.', '0']) =
      ('v' :: (d1 ++ '.' :: (natDigits (digitsToNat d2 + 1) ++ ['.', '0']))) from by
        simp [List.cons_append, List.append_assoc],
      parseVerL_build d1 (digitsToNat d2 + 1) hcan1, hval1, hval2]

theorem verLt_irrefl (a : semversion) : verLt a a = false := by
  unfold verLt
  simp

theorem verLt_nonpre_iff (a b : semversion) (ha : a.Pre = "") (hb : b.Pre = "") :
    verLt a b = true ↔
      (a.Major < b.Major ∨ (a.Major = b.Major ∧ (a.Minor < b.Minor ∨
        (a.Minor = b.Minor ∧ a.Patch < b.Patch)))) := by
  unfold verLt
  rw [ha, hb]
  split_ifs with h1 h2 h3 <;> simp_all

theorem verLt_shift (hv sv tv : semversion) (hhv : hv.Pre = "") (hsv : sv.Pre = "")
    (htv : tv.Pre = "") (h1 : verLt hv sv = true) (h2 : verLt hv tv = false) :
    verLt sv tv = false := by
  rw [verLt_nonpre_iff _ _ hhv hsv] at h1
  have h2b : ¬ (verLt hv tv = true) := by simp [h2]
  rw [verLt_nonpre_iff _ _ hhv htv] at h2b
  have h3 : ¬ (verLt sv tv = true) := by
    rw [verLt_nonpre_iff _ _ hsv htv]
    omega
  simpa using h3

theorem parseVerL_empty : parseVerL ("" : String).data = none := rfl

theorem betterTag_inv (processed : List String) (acc t : String)
    (h : HighestInv processed acc) : HighestInv (processed ++ [t]) (betterTag acc t) := by
  unfold betterTag
  cases hp : parseVerL t.data with
  | none =>
    rcases h with ⟨hacc, hnone⟩ | ⟨hmem, hv, hparse, hvpre, hmax⟩
    · refine Or.inl ⟨hacc, ?_⟩
      intro t2 ht2 tv hptv
      rcases List.mem_append.mp ht2 with ht2 | ht2
      · exact hnone t2 ht2 tv hptv
      · simp at ht2
        subst ht2
        rw [hp] at hptv
        exact absurd hptv (by simp)
    · refine Or.inr ⟨List.mem_append_left _ hmem, hv, hparse, hvpre, ?_⟩
      intro t2 ht2 tv hptv hpre
      rcases List.mem_append.mp ht2 with ht2 | ht2
      · exact hmax t2 ht2 tv hptv hpre
      · simp at ht2
        subst ht2
        rw [hp] at hptv
        exact absurd hptv (by simp)
  | some sv =>
    show HighestInv (processed ++ [t])
      (if sv.Pre ≠ "" then acc
       else if acc = "" then t
       else match parseVerL acc.data with
         | none => t
         | some hv => if verLt hv sv then t else acc)
    by_cases hpre : sv.Pre ≠ ""
    · rw [if_pos hpre]
      rcases h with ⟨hacc, hnone⟩ | ⟨hmem, hv, hparse, hvpre, hmax⟩
      · refine Or.inl ⟨hacc, ?_⟩
        intro t2 ht2 tv hptv
        rcases List.mem_append.mp ht2 with ht2 | ht2
        · exact hnone t2 ht2 tv hptv
        · simp at ht2
          subst ht2
          rw [hp] at hptv
          injection hptv with hptv
          subst hptv
          exact hpre
      · refine Or.inr ⟨List.mem_append_left _ hmem, hv, hparse, hvpre, ?_⟩
        intro t2 ht2 tv hptv hpre2
        rcases List.mem_append.mp ht2 with ht2 | ht2
        · exact hmax t2 ht2 tv hptv hpre2
        · simp at ht2
          subst ht2
          rw [hp] at hptv
          injection hptv with hptv
          subst hptv
          exact absurd hpre2 hpre
    · rw [if_neg hpre]
      push_neg at hpre
      by_cases hacc : acc = ""
      · rw [if_pos hacc]
        have hleft : ∀ t2 ∈ processed, ∀ tv, parseVerL t2.data = some tv → tv.Pre ≠ "" := by
          rcases h with ⟨_, hnone⟩ | ⟨_, hv, hparse, _, _⟩
          · exact hnone
          · rw [hacc, parseVerL_empty] at hparse
            exact absurd hparse (by simp)
        refine Or.inr ⟨List.mem_append_right _ (by simp), sv, hp, hpre, ?_⟩
        intro t2 ht2 tv hptv hpre2
        rcases List.mem_append.mp ht2 with ht2 | ht2
        · exact absurd hpre2 (hleft t2 ht2 tv hptv)
        · simp at ht2
          subst ht2
          rw [hp] at hptv
          injection hptv with hptv
          subst hptv
          exact verLt_irrefl sv
      · rw [if_neg hacc]
        have hright : acc ∈ processed ∧ ∃ hv, parseVerL acc.data = some hv ∧ hv.Pre = "" ∧
            ∀ t2 ∈ processed, ∀ tv, parseVerL t2.data = some tv → tv.Pre = "" →
              verLt hv tv = false := by
          rcases h with ⟨hacc2, _⟩ | hr
          · exact absurd hacc2 hacc
          · exact hr
        obtain ⟨hmem, hv, hparse, hvpre, hmax⟩ := hright
        rw [hparse]
        show HighestInv (processed ++ [t]) (if verLt hv sv then t else acc)
        by_cases hlt : verLt hv sv = true
        · rw [if_pos hlt]
          refine Or.inr ⟨List.mem_append_right _ (by simp), sv, hp, hpre, ?_⟩
          intro t2 ht2 tv hptv hpre2
          rcases List.mem_append.mp ht2 with ht2 | ht2
          · exact verLt_shift hv sv tv hvpre hpre hpre2 hlt (hmax t2 ht2 tv hptv hpre2)
          · simp at ht2
            subst ht2
            rw [hp] at hptv
            injection hptv with hptv
            subst hptv
            exact verLt_irrefl sv
        · rw [if_neg hlt]
          refine Or.inr ⟨List.mem_append_left _ hmem, hv, hparse, hvpre, ?_⟩
          intro t2 ht2 tv hptv hpre2
          rcases List.mem_append.mp ht2 with ht2 | ht2
          · exact hmax t2 ht2 tv hptv hpre2
          · simp at ht2
            subst ht2
            rw [hp] at hptv
            injection hptv with hptv
            subst hptv
            exact Bool.eq_false_iff.mpr hlt

theorem highestRelease_inv (tags : List String) : HighestInv tags (highestRelease tags) := by
  have gen : ∀ (l : List String) (processed : List String) (acc : String),
      HighestInv processed acc → HighestInv (processed ++ l) (l.foldl betterTag acc) := by
    intro l
    induction l with
    | nil => intro processed acc h; simpa using h
    | cons x l ih =>
      intro processed acc h
      have h2 := ih (processed ++ [x]) (betterTag acc x) (betterTag_inv processed acc x h)
      simpa using h2
  have h0 : HighestInv [] "" := Or.inl ⟨rfl, by simp⟩
  have := gen tags [] "" h0
  simpa [highestRelease] using this

theorem lookupStr_isSome (l : List (String × String)) (k : String)
    (h : k ∈ l.map Prod.fst) : ∃ v, lookupStr l k = some v := by
  induction l with
  | nil => simp at h
  | cons x t ih =>
    obtain ⟨k1, v1⟩ := x
    unfold lookupStr
    by_cases hk : k1 = k
    · rw [if_pos hk]
      exact ⟨v1, rfl⟩
    · rw [if_neg hk]
      apply ih
      rcases List.mem_map.mp h with ⟨p, hp, hpk⟩
      rcases List.mem_cons.mp hp with rfl | hp
      · simp at hpk
        exact absurd hpk hk
      · exact List.mem_map.mpr ⟨p, hp, hpk⟩

theorem lookupStr_append_fresh (l : List (String × String)) (k c : String)
    (h : k ∉ l.map Prod.fst) : lookupStr (l ++ [(k, c)]) k = some c := by
  induction l with
  | nil => simp [lookupStr]
  | cons x t ih =>
    obtain ⟨k1, v1⟩ := x
    rw [List.cons_append]
    unfold lookupStr
    rw [if_neg (fun hc => h (by simp [hc]))]
    exact ih (fun hc => h (by simp [hc]))

theorem maybeTag_hit (st : GerritState) (repo : TagRepo) (commit rev : String)
    (hne : highestRelease (st.tags.map Prod.fst) ≠ "")
    (hrev : lookupStr st.tags (highestRelease (st.tags.map Prod.fst)) = some rev)
    (hc : rev = commit) :
    MaybeTag st repo commit =
      Except.ok ({repo with Version := highestRelease (st.tags.map Prod.fst)}, st) := by
  unfold MaybeTag
  rw [if_neg hne]
  simp only [hrev]
  rw [if_pos hc]

theorem maybeTag_miss (st : GerritState) (repo : TagRepo) (commit rev v : String)
    (hne : highestRelease (st.tags.map Prod.fst) ≠ "")
    (hrev : lookupStr st.tags (highestRelease (st.tags.map Prod.fst)) = some rev)
    (hc : rev ≠ commit)
    (hnm : nextMinor (highestRelease (st.tags.map Prod.fst)) = Except.ok v)
    (hfresh : (st.tags.map Prod.fst).contains v = false) :
    MaybeTag st repo commit =
      Except.ok ({repo with Version := v}, ⟨st.tags ++ [(v, commit)]⟩) := by
  have hg : gerritTag st v commit = Except.ok ⟨st.tags ++ [(v, commit)]⟩ := by
    unfold gerritTag
    rw [if_neg (fun hco => Bool.false_ne_true (hfresh ▸ hco))]
  unfold MaybeTag
  rw [if_neg hne]
  simp only [hrev]
  rw [if_neg hc]
  simp only [hnm, hg]

/-- C4: with at least one valid non-pre-release tag, MaybeTag selects the
highest such tag; when its bound commit is the target commit it returns the
repo with that version and creates nothing, otherwise it returns the repo
with version nextMinor(highest) and creates exactly that tag at the target
commit. -/
theorem c4_maybe_tag (st : GerritState) (repo : TagRepo) (commit : String)
    (hex : ∃ t ∈ st.tags.map Prod.fst, ∃ sv, parseVerL t.data = some sv ∧ sv.Pre = "") :
    highestRelease (st.tags.map Prod.fst) ∈ st.tags.map Prod.fst ∧
    (∃ hv, parseVerL (highestRelease (st.tags.map Prod.fst)).data = some hv ∧
      hv.Pre = "" ∧
      ∀ t ∈ st.tags.map Prod.fst, ∀ tv, parseVerL t.data = some tv → tv.Pre = "" →
        verLt hv tv = false) ∧
    ∃ rev, lookupStr st.tags (highestRelease (st.tags.map Prod.fst)) = some rev ∧
      (rev = commit → MaybeTag st repo commit =
        Except.ok ({repo with Version := highestRelease (st.tags.map Prod.fst)}, st)) ∧
      (rev ≠ commit →
        ∃ v, nextMinor (highestRelease (st.tags.map Prod.fst)) = Except.ok v ∧
          MaybeTag st repo commit =
            Except.ok ({repo with Version := v}, ⟨st.tags ++ [(v, commit)]⟩)) := by
  have hinv := highestRelease_inv (st.tags.map Prod.fst)
  have hright : highestRelease (st.tags.map Prod.fst) ∈ st.tags.map Prod.fst ∧
      ∃ hv, parseVerL (highestRelease (st.tags.map Prod.fst)).data = some hv ∧
        hv.Pre = "" ∧
        ∀ t ∈ st.tags.map Prod.fst, ∀ tv, parseVerL t.data = some tv → tv.Pre = "" →
          verLt hv tv = false := by
    rcases hinv with ⟨_, hnone⟩ | hr
    · obtain ⟨t, ht, sv, hpsv, hsvpre⟩ := hex
      exact absurd hsvpre (hnone t ht sv hpsv)
    · exact hr
  obtain ⟨hmem, hv, hparse, hvpre, hmax⟩ := hright
  have hne : highestRelease (st.tags.map Prod.fst) ≠ "" := by
    intro hc
    rw [hc, parseVerL_empty] at hparse
    exact absurd hparse (by simp)
  obtain ⟨rev, hrev⟩ := lookupStr_isSome st.tags _ hmem
  refine ⟨hmem, ⟨hv, hparse, hvpre, hmax⟩, rev, hrev, ?_, ?_⟩
  · intro hrc
    exact maybeTag_hit st repo commit rev hne hrev hrc
  · intro hrc
    obtain ⟨out, hnmL, hpout⟩ :=
      nextMinor_of_parse (highestRelease (st.tags.map Prod.fst)).data hv hparse
    have hnm : nextMinor (highestRelease (st.tags.map Prod.fst)) =
        Except.ok (String.mk out) := by
      unfold nextMinor
      rw [hnmL]
    have hfresh : (st.tags.map Prod.fst).contains (String.mk out) = false := by
      by_contra hc
      have hmem2 : String.mk out ∈ st.tags.map Prod.fst := by
        cases hx : (st.tags.map Prod.fst).contains (String.mk out)
        · exact absurd hx hc
        · exact (contains_true_iff _ _).mp hx
      have hnolt := hmax (String.mk out) hmem2 ⟨hv.Major, hv.Minor + 1, 0, ""⟩
        (by exact hpout) rfl
      have hlt : verLt hv ⟨hv.Major, hv.Minor + 1, 0, ""⟩ = true := by
        rw [verLt_nonpre_iff _ _ hvpre rfl]
        right
        exact ⟨rfl, Or.inl (by simp)⟩
      rw [hnolt] at hlt
      exact Bool.false_ne_true hlt
    exact ⟨String.mk out, hnm,
      maybeTag_miss st repo commit rev (String.mk out) hne hrev hrc hnm hfresh⟩

theorem c4_witness :
    (∃ t ∈ (GerritState.mk [("v1.0.0", "c0")]).tags.map Prod.fst,
      ∃ sv, parseVerL t.data = some sv ∧ sv.Pre = "") ∧
    (highestRelease ((GerritState.mk [("v1.0.0", "c0")]).tags.map Prod.fst) ∈
      (GerritState.mk [("v1.0.0", "c0")]).tags.map Prod.fst ∧
    (∃ hv, parseVerL (highestRelease
        ((GerritState.mk [("v1.0.0", "c0")]).tags.map Prod.fst)).data = some hv ∧
      hv.Pre = "" ∧
      ∀ t ∈ (GerritState.mk [("v1.0.0", "c0")]).tags.map Prod.fst, ∀ tv,
        parseVerL t.data = some tv → tv.Pre = "" → verLt hv tv = false) ∧
    ∃ rev, lookupStr (GerritState.mk [("v1.0.0", "c0")]).tags
        (highestRelease ((GerritState.mk [("v1.0.0", "c0")]).tags.map Prod.fst)) =
        some rev ∧
      (rev = "c1" → MaybeTag ⟨[("v1.0.0", "c0")]⟩ ⟨"tools", "golang.org/x/tools", [], ""⟩
          "c1" =
        Except.ok (⟨"tools", "golang.org/x/tools", [],
          highestRelease ((GerritState.mk [("v1.0.0", "c0")]).tags.map Prod.fst)⟩,
          ⟨[("v1.0.0", "c0")]⟩)) ∧
      (rev ≠ "c1" →
        ∃ v, nextMinor (highestRelease
            ((GerritState.mk [("v1.0.0", "c0")]).tags.map Prod.fst)) = Except.ok v ∧
          MaybeTag ⟨[("v1.0.0", "c0")]⟩ ⟨"tools", "golang.org/x/tools", [], ""⟩ "c1" =
            Except.ok (⟨"tools", "golang.org/x/tools", [], v⟩,
              ⟨[("v1.0.0", "c0"), (v, "c1")]⟩))) :=
  ⟨by decide, c4_maybe_tag ⟨[("v1.0.0", "c0")]⟩ ⟨"tools", "golang.org/x/tools", [], ""⟩
    "c1" (by decide)⟩

/-- C5 fails as frozen: after a first MaybeTag call created the tag for the
decided version, a second call with the same module and target commit does
not attempt to recreate the tag and surfaces no error — it returns the same
version and leaves the tag store unchanged. -/
theorem c5_counterexample :
    MaybeTag ⟨[("v1.0.0", "c0")]⟩ ⟨"tools", "golang.org/x/tools", [], ""⟩ "c1" =
      Except.ok (⟨"tools", "golang.org/x/tools", [], "v1.1.0"⟩,
        ⟨[("v1.0.0", "c0"), ("v1.1.0", "c1")]⟩) ∧
    MaybeTag ⟨[("v1.0.0", "c0"), ("v1.1.0", "c1")]⟩
        ⟨"tools", "golang.org/x/tools", [], ""⟩ "c1" =
      Except.ok (⟨"tools", "golang.org/x/tools", [], "v1.1.0"⟩,
        ⟨[("v1.0.0", "c0"), ("v1.1.0", "c1")]⟩) :=
  ⟨by decide, by decide⟩

/-- C5 (amended): MaybeTag is idempotent against double-execution under the
same already-tagged state: whenever a call succeeds, repeating it with the
same module and target commit on the resulting state succeeds with the same
result and changes nothing. -/
theorem c5_maybe_tag_idempotent (st : GerritState) (repo : TagRepo) (commit : String)
    (r2 : TagRepo) (st2 : GerritState)
    (h : MaybeTag st repo commit = Except.ok (r2, st2)) :
    MaybeTag st2 repo commit = Except.ok (r2, st2) := by
  by_cases hne : highestRelease (st.tags.map Prod.fst) = ""
  · unfold MaybeTag at h
    rw [if_pos hne] at h
    exact absurd h (by simp)
  · unfold MaybeTag at h
    rw [if_neg hne] at h
    cases hrev : lookupStr st.tags (highestRelease (st.tags.map Prod.fst)) with
    | none =>
      rw [hrev] at h
      exact absurd h (by simp)
    | some rev =>
      simp only [hrev] at h
      by_cases hrc : rev = commit
      · rw [if_pos hrc] at h
        injection h with hpair
        rw [Prod.mk.injEq] at hpair
        obtain ⟨hr2, hst2⟩ := hpair
        subst hst2
        rw [← hr2]
        exact maybeTag_hit st repo commit rev hne hrev hrc
      · rw [if_neg hrc] at h
        have hinvr : ∃ hv, parseVerL (highestRelease (st.tags.map Prod.fst)).data =
            some hv ∧ hv.Pre = "" := by
          rcases highestRelease_inv (st.tags.map Prod.fst) with ⟨ha, _⟩ | hr
          · exact absurd ha hne
          · exact ⟨hr.2.choose, hr.2.choose_spec.1, hr.2.choose_spec.2.1⟩
        obtain ⟨hv, hparse, hvpre⟩ := hinvr
        obtain ⟨out, hnmL, hpout⟩ :=
          nextMinor_of_parse (highestRelease (st.tags.map Prod.fst)).data hv hparse
        have hnm : nextMinor (highestRelease (st.tags.map Prod.fst)) =
            Except.ok (String.mk out) := by
          unfold nextMinor
          rw [hnmL]
        rw [hnm] at h
        simp only [] at h
        cases hg : gerritTag st (String.mk out) commit with
        | error e =>
          rw [hg] at h
          exact absurd h (by simp)
        | ok stNew =>
          rw [hg] at h
          simp only [] at h
          injection h with hpair
          rw [Prod.mk.injEq] at hpair
          obtain ⟨hr2, hst2⟩ := hpair
          by_cases hcon : (st.tags.map Prod.fst).contains (String.mk out) = true
          · unfold gerritTag at hg
            rw [if_pos hcon] at hg
            exact absurd hg (by simp)
          · unfold gerritTag at hg
            rw [if_neg hcon] at hg
            injection hg with hg
            have hst2tags : st2.tags = st.tags ++ [(String.mk out, commit)] := by
              rw [← hst2, ← hg]
            have hkeys : st2.tags.map Prod.fst =
                st.tags.map Prod.fst ++ [String.mk out] := by
              rw [hst2tags]
              simp
            have hvdata : (String.mk out).data = out := rfl
            have hbet : betterTag (highestRelease (st.tags.map Prod.fst))
                (String.mk out) = String.mk out := by
              unfold betterTag
              rw [hvdata]
              simp only [hpout]
              rw [if_neg (by simp), if_neg hne]
              simp only [hparse]
              rw [if_pos (by
                rw [verLt_nonpre_iff _ _ hvpre rfl]
                right
                exact ⟨rfl, Or.inl (by simp)⟩)]
            have hhigh2 : highestRelease (st2.tags.map Prod.fst) = String.mk out := by
              rw [hkeys]
              unfold highestRelease
              rw [List.foldl_append]
              show betterTag (highestRelease (st.tags.map Prod.fst)) (String.mk out) =
                String.mk out
              exact hbet
            have hne2 : highestRelease (st2.tags.map Prod.fst) ≠ "" := by
              rw [hhigh2]
              intro hc
              have : (String.mk out).data = ("" : String).data := by rw [hc]
              rw [hvdata] at this
              rw [show ("" : String).data = [] from rfl] at this
              rw [this] at hpout
              exact absurd hpout (by simp [parseVerL])
            have hfresh2 : String.mk out ∉ st.tags.map Prod.fst := by
              intro hc
              rw [(contains_true_iff _ _).mpr hc] at hcon
              exact hcon rfl
            have hrev2 : lookupStr st2.tags (highestRelease (st2.tags.map Prod.fst)) =
                some commit := by
              rw [hhigh2, hst2tags]
              exact lookupStr_append_fresh st.tags (String.mk out) commit hfresh2
            have hfinal := maybeTag_hit st2 repo commit commit hne2 hrev2 rfl
            rw [hhigh2] at hfinal
            rw [hfinal, ← hr2]

theorem c5_witness :
    MaybeTag ⟨[("v1.0.0", "c0")]⟩ ⟨"tools", "golang.org/x/tools", [], ""⟩ "c1" =
      Except.ok (⟨"tools", "golang.org/x/tools", [], "v1.1.0"⟩,
        ⟨[("v1.0.0", "c0"), ("v1.1.0", "c1")]⟩) ∧
    MaybeTag ⟨[("v1.0.0", "c0"), ("v1.1.0", "c1")]⟩
        ⟨"tools", "golang.org/x/tools", [], ""⟩ "c1" =
      Except.ok (⟨"tools", "golang.org/x/tools", [], "v1.1.0"⟩,
        ⟨[("v1.0.0", "c0"), ("v1.1.0", "c1")]⟩) :=
  ⟨by decide, c5_maybe_tag_idempotent ⟨[("v1.0.0", "c0")]⟩
    ⟨"tools", "golang.org/x/tools", [], ""⟩ "c1"
    ⟨"tools", "golang.org/x/tools", [], "v1.1.0"⟩
    ⟨[("v1.0.0", "c0"), ("v1.1.0", "c1")]⟩ (by decide)⟩

theorem prereleaseVersion_ok_pre_ne (semv : semversion) (p : Int)
    (h : prereleaseVersion semv = Except.ok p) : semv.Pre ≠ "" := by
  intro hc
  unfold prereleaseVersion at h
  rw [hc] at h
  rw [if_pos (by decide)] at h
  exact absurd h (by simp)

/-- C6: isValidPrereleaseVersion accepts exactly the pre-release-tagged
versions whose ordinal parses, whose final release tag does not exist, whose
ordinal is the current (latest) pre-release ordinal, and whose pre-release
tag points at the release branch head; an input older than the latest
pre-release and an input newer than the latest are rejected with distinct
errors. -/
theorem c6_valid_prerelease (st : ToolsState) (version : String) (semv : semversion)
    (pre : Int) :
    (isValidPrereleaseVersion st version = Except.ok semv ↔
      (semverIsValid version = true ∧
       parseSemver version = some semv ∧
       semv.Pre ≠ "" ∧
       ∃ p head, prereleaseVersion semv = Except.ok p ∧
         (st.tags.map Prod.fst).contains (goplsReleaseTagOf semv) = false ∧
         currentGoplsPrerelease (st.tags.map Prod.fst) semv = p ∧
         lookupStr st.branchHeads (goplsReleaseBranchName semv) = some head ∧
         lookupStr st.tags ("gopls/" ++ version) = some head)) ∧
    (semverIsValid version = true →
     parseSemver version = some semv →
     prereleaseVersion semv = Except.ok pre →
     (st.tags.map Prod.fst).contains (goplsReleaseTagOf semv) = false →
     pre < currentGoplsPrerelease (st.tags.map Prod.fst) semv →
     isValidPrereleaseVersion st version =
       Except.error (TaskErr.newerPreAvailable
         (currentGoplsPrerelease (st.tags.map Prod.fst) semv))) ∧
    (semverIsValid version = true →
     parseSemver version = some semv →
     prereleaseVersion semv = Except.ok pre →
     (st.tags.map Prod.fst).contains (goplsReleaseTagOf semv) = false →
     currentGoplsPrerelease (st.tags.map Prod.fst) semv < pre →
     isValidPrereleaseVersion st version =
       Except.error (TaskErr.preNotYetAvailable
         (currentGoplsPrerelease (st.tags.map Prod.fst) semv))) := by
  refine ⟨⟨?_, ?_⟩, ?_, ?_⟩
  · intro h
    by_cases h1 : semverIsValid version = true
    case neg =>
      have h1b : (!semverIsValid version) = true := by
        cases hx : semverIsValid version
        · rfl
        · exact absurd hx h1
      unfold isValidPrereleaseVersion at h
      rw [if_pos h1b] at h
      exact absurd h (by simp)
    case pos =>
    unfold isValidPrereleaseVersion at h
    rw [if_neg (fun hc => by rw [h1] at hc; simp at hc)] at h
    cases hps : parseSemver version with
    | none =>
      rw [hps] at h
      exact absurd h (by simp)
    | some semv2 =>
    simp only [hps] at h
    by_cases hpre0 : semv2.Pre = ""
    case pos =>
      rw [if_pos hpre0] at h
      exact absurd h (by simp)
    case neg =>
    rw [if_neg hpre0] at h
    cases hpv : prereleaseVersion semv2 with
    | error e =>
      rw [hpv] at h
      exact absurd h (by simp)
    | ok p =>
    simp only [hpv] at h
    by_cases hcon : (st.tags.map Prod.fst).contains (goplsReleaseTagOf semv2) = true
    case pos =>
      rw [if_pos hcon] at h
      exact absurd h (by simp)
    case neg =>
    have hconf : (st.tags.map Prod.fst).contains (goplsReleaseTagOf semv2) = false := by
      cases hx : (st.tags.map Prod.fst).contains (goplsReleaseTagOf semv2)
      · rfl
      · exact absurd hx hcon
    rw [if_neg hcon] at h
    by_cases hlt1 : p < currentGoplsPrerelease (st.tags.map Prod.fst) semv2
    case pos =>
      rw [if_pos hlt1] at h
      exact absurd h (by simp)
    case neg =>
    rw [if_neg hlt1] at h
    by_cases hlt2 : currentGoplsPrerelease (st.tags.map Prod.fst) semv2 < p
    case pos =>
      rw [if_pos hlt2] at h
      exact absurd h (by simp)
    case neg =>
    rw [if_neg hlt2] at h
    cases hbh : lookupStr st.branchHeads (goplsReleaseBranchName semv2) with
    | none =>
      rw [hbh] at h
      exact absurd h (by simp)
    | some head =>
    simp only [hbh] at h
    cases hti : lookupStr st.tags ("gopls/" ++ version) with
    | none =>
      rw [hti] at h
      exact absurd h (by simp)
    | some revision =>
    simp only [hti] at h
    by_cases hrh : revision ≠ head
    case pos =>
      rw [if_pos hrh] at h
      exact absurd h (by simp)
    case neg =>
    rw [if_neg hrh] at h
    injection h with h
    subst h
    push_neg at hrh
    subst hrh
    exact ⟨h1, rfl, hpre0, p, revision, hpv, hconf, by omega, hbh, rfl⟩
  · intro ⟨h1, hps, hpre, p, head, hpv, hcon, hcur, hbh, hti⟩
    unfold isValidPrereleaseVersion
    rw [if_neg (fun hc => by rw [h1] at hc; simp at hc)]
    simp only [hps]
    rw [if_neg hpre]
    simp only [hpv]
    rw [if_neg (fun hc => Bool.false_ne_true (hcon ▸ hc)), hcur,
      if_neg (lt_irrefl p), if_neg (lt_irrefl p)]
    simp only [hbh, hti]
    rw [if_neg (fun hc => hc rfl)]
  · intro h1 hps hpv hcon hlt
    unfold isValidPrereleaseVersion
    rw [if_neg (fun hc => by rw [h1] at hc; simp at hc)]
    simp only [hps]
    rw [if_neg (prereleaseVersion_ok_pre_ne semv pre hpv)]
    simp only [hpv]
    rw [if_neg (fun hc => Bool.false_ne_true (hcon ▸ hc)), if_pos hlt]
  · intro h1 hps hpv hcon hlt
    unfold isValidPrereleaseVersion
    rw [if_neg (fun hc => by rw [h1] at hc; simp at hc)]
    simp only [hps]
    rw [if_neg (prereleaseVersion_ok_pre_ne semv pre hpv)]
    simp only [hpv]
    rw [if_neg (fun hc => Bool.false_ne_true (hcon ▸ hc)),
      if_neg (by omega), if_pos hlt]

theorem c6_witness :
    isValidPrereleaseVersion
      ⟨[("gopls/v1.2.0-pre.1", "c1"), ("gopls/v1.2.0-pre.2", "c2")],
       [("gopls-release-branch.1.2", "c2")]⟩ "v1.2.0-pre.2" =
      Except.ok ⟨1, 2, 0, "pre.2"⟩ ∧
    isValidPrereleaseVersion
      ⟨[("gopls/v1.2.0-pre.1", "c1"), ("gopls/v1.2.0-pre.2", "c2")],
       [("gopls-release-branch.1.2", "c2")]⟩ "v1.2.0-pre.1" =
      Except.error (TaskErr.newerPreAvailable 2) :=
  ⟨((c6_valid_prerelease
      ⟨[("gopls/v1.2.0-pre.1", "c1"), ("gopls/v1.2.0-pre.2", "c2")],
       [("gopls-release-branch.1.2", "c2")]⟩ "v1.2.0-pre.2" ⟨1, 2, 0, "pre.2"⟩ 2).1).mpr
    ⟨by decide, by decide, by decide, 2, "c2", by decide, by decide, by decide,
      by decide, by decide⟩,
   by
    have h := (c6_valid_prerelease
      ⟨[("gopls/v1.2.0-pre.1", "c1"), ("gopls/v1.2.0-pre.2", "c2")],
       [("gopls-release-branch.1.2", "c2")]⟩ "v1.2.0-pre.1" ⟨1, 2, 0, "pre.1"⟩ 1).2.1
      (by decide) (by decide) (by decide) (by decide) (by decide)
    rw [h]
    decide⟩
